import Mathlib

/-!
Verification of the emerge language parsers (vbnetparser.py, csharpparser.py,
cssparser.py, scssparser.py, xmlparser.py) against their specification.

The Python code is shallowly embedded: strings are `String`/`List Char`,
token sequences are `List String`, and each Python helper is translated to a
computable Lean function.  Python behaviours that matter here and how they are
modelled:
  * `str.replace(a, b)` — leftmost, non-overlapping, no rescan of the
    replacement; modelled by `pyReplace` (fuel-structural, fuel = length is
    always sufficient since every step consumes at least one character).
  * `re.findall` with the pattern `\S+|\n` — maximal runs of non-whitespace characters,
    plus each newline as its own token; modelled by `tokenizeL` (ASCII
    whitespace model).
  * `str.split(c)` keeps empty pieces; `str.splitlines()` drops a trailing
    empty line; `str.strip()` trims whitespace at both ends.
  * `a in b` on strings is the substring test, modelled by `pyIn`.
-/

/-- ASCII model of the Python whitespace class used by `\S`, `split()` and
`strip()`. -/
def pyIsSpace (c : Char) : Bool :=
  c = ' ' || c = '\t' || c = '\n' || c = '\r' || c = '\x0b' || c = '\x0c'

/-- Python `str.strip()` on a character list. -/
def pyStripL (l : List Char) : List Char :=
  ((l.dropWhile pyIsSpace).reverse.dropWhile pyIsSpace).reverse

/-- Python `str.strip()`. -/
def pyStrip (s : String) : String := ⟨pyStripL s.data⟩

/-- Python `str.startswith`. -/
def pyStartsWith (s pre : String) : Bool := pre.data.isPrefixOf s.data

/-- Substring test on character lists. -/
def isSubL (needle : List Char) : List Char → Bool
  | [] => needle.isEmpty
  | c :: cs => needle.isPrefixOf (c :: cs) || isSubL needle cs

/-- Python `needle in hay` (substring test). -/
def pyIn (needle hay : String) : Bool := isSubL needle.data hay.data

/-- Python `sep.join(xs)`. -/
def joinWith (sep : String) : List String → String
  | [] => ""
  | [x] => x
  | x :: xs => x ++ sep ++ joinWith sep xs

/-- Split a character list at every occurrence of `c`, keeping empty pieces,
as Python `str.split(c)` does. -/
def splitOnCharAux (c : Char) : List Char → List Char → List (List Char)
  | [], acc => [acc.reverse]
  | d :: ds, acc =>
    if d = c then acc.reverse :: splitOnCharAux c ds []
    else splitOnCharAux c ds (d :: acc)

/-- Python `s.split(c)` for a single-character separator. -/
def pySplitChar (c : Char) (s : String) : List String :=
  (splitOnCharAux c s.data []).map (fun l => ⟨l⟩)

/-- Python `str.splitlines()` for `\n`-separated text: like splitting on the
newline character but with a trailing empty piece dropped (so `"" ↦ []`). -/
def pySplitlines (s : String) : List String :=
  let ps := splitOnCharAux '\n' s.data []
  (if ps.getLast? = some [] then ps.dropLast else ps).map (fun l => ⟨l⟩)

/-- Python `str.replace(pat, repl)` with explicit fuel.  Each recursion step
consumes at least one character of the input, so `fuel = s.length` is always
enough; the fuel only makes the recursion structural. -/
def pyReplaceFuel (pat repl : List Char) : Nat → List Char → List Char
  | _, [] => []
  | 0, s => s
  | fuel + 1, c :: cs =>
    if pat.isPrefixOf (c :: cs) then
      repl ++ pyReplaceFuel pat repl fuel (cs.drop (pat.length - 1))
    else
      c :: pyReplaceFuel pat repl fuel cs

/-- Python `str.replace(pat, repl)` on character lists (Python replaces
nothing-everywhere semantics of an empty pattern are not needed here; the
empty pattern is mapped to the identity). -/
def pyReplace (pat repl s : List Char) : List Char :=
  if pat = [] then s else pyReplaceFuel pat repl s.length s

/-- Python `str.replace` on `String`. -/
def pyReplaceStr (pat repl s : String) : String :=
  ⟨pyReplace pat.data repl.data s.data⟩

/-- Modelled from the spec: the shared mixin tokenizer
`preprocess_file_content_and_generate_token_list` is not under `src/`; per the
spec (§4.1) it splits on whitespace "while treating newline as a significant
token boundary", i.e. Python `re.findall` with the pattern `\S+|\n` exactly as the
in-`src` copy in `vbnetparser.py` line 268 does.  Accumulator-structural so
that concrete runs reduce in the kernel. -/
def tokenizeAux : List Char → List Char → List (List Char)
  | [], acc => if acc = [] then [] else [acc.reverse]
  | c :: cs, acc =>
    if c = '\n' then
      (if acc = [] then [] else [acc.reverse]) ++ ['\n'] :: tokenizeAux cs []
    else if pyIsSpace c then
      (if acc = [] then [] else [acc.reverse]) ++ tokenizeAux cs []
    else tokenizeAux cs (c :: acc)

/-- Python `re.findall` with the pattern `\S+|\n`, on a character list. -/
def tokenizeL (s : List Char) : List (List Char) := tokenizeAux s []

/-- Python `re.findall` with the pattern `\S+|\n`, producing string tokens. -/
def strTokenize (s : String) : List String := (tokenizeL s.data).map (fun l => ⟨l⟩)

/-- Apply a token-mapping table in order, each entry a literal substring
replacement, as `preprocess_file_content_and_generate_token_list_by_mapping`
does (vbnetparser.py lines 265-268). -/
def applyMappings (ms : List (String × String)) (s : List Char) : List Char :=
  ms.foldl (fun acc p => pyReplace p.1.data p.2.data acc) s

/-- Token list produced by the `by_mapping` preprocessing: substitutions,
then `\S+|\n` splitting. -/
def tokenizeByMapping (ms : List (String × String)) (s : String) : List String :=
  (tokenizeL (applyMappings ms s.data)).map (fun l => ⟨l⟩)

/-!
The read-ahead generator `_gen_word_read_ahead` (vbnetparser.py lines
287-294, identical in csharpparser.py).  The Python generator keeps a
mutable `following` variable, initialised to `None`, which is only updated
while `index < length - 1`; at the last index it therefore yields the stale
value from the previous iteration.
-/

/-- One yielded triple of the read-ahead generator: index, token, and the
`following` value at yield time (`none` models the Python `None`). -/
abbrev ReadAheadTriple := Nat × String × Option (List String)

/-- Loop body of `_gen_word_read_ahead`: walking the suffix, `rest` is
exactly `list_of_words[index + 1:]`, and `index < length - 1` holds exactly
when `rest` is nonempty. -/
def genReadAheadAux : List String → Nat → Option (List String) → List ReadAheadTriple
  | [], _, _ => []
  | w :: rest, i, fol =>
    let fol' := if rest.isEmpty then fol else some rest
    (i, w, fol') :: genReadAheadAux rest (i + 1) fol'

/-- Function `_gen_word_read_ahead(list_of_words)`: the full sequence of yielded
triples. -/
def genWordReadAhead (ws : List String) : List ReadAheadTriple :=
  genReadAheadAux ws 0 none

/-- Function `create_read_ahead_string(obj, following)` (vbnetparser.py lines
296-300): `" ".join([obj] + following)`. -/
def createReadAheadString (obj : String) (following : List String) : String :=
  joinWith " " (obj :: following)

/-!
VB.NET parser embedding (vbnetparser.py).
-/

/-- Entity-opening keywords used for scope matching in
`generate_entity_results_from_analysis` (vbnetparser.py lines 154-159). -/
def vbnetEntityKeywords : List String := ["Class", "Structure", "Interface", "Enum"]

/-- Keywords whose substring occurrence in a token raises the nesting depth
in the body-capture loop (vbnetparser.py lines 349-356). -/
def vbnetOpenKeywords : List String :=
  ["Namespace", "Class", "Structure", "Interface", "Enum", "Function", "Sub", "If"]

/-- Keywords filtered out of the entity results as obvious parsing errors
(vbnetparser.py lines 60-64). -/
def vbnetIgnoreEntityKeywords : List String :=
  ["Class", "Structure", "Interface", "Enum", "Namespace", "Imports", "Public",
   "Private", "Protected", "Friend", "Static", "ReadOnly", "Overridable",
   "MustOverride", "NotOverridable", "Shadows", "New", "Me", "MyBase", "Event",
   "Delegate", "Operator", "Implicit", "Explicit"]

/-- The VB.NET token-mapping table (vbnetparser.py lines 42-58). -/
def vbnetMappings : List (String × String) :=
  [(":", " : "), (";", " ; "), ("(", " ( "), (")", " ) "),
   ("\x7b", " \x7b "), ("\x7d", " \x7d "), ("[", " [ "), ("]", " ] "),
   ("?", " ? "), ("!", " ! "), (",", " , "), ("<", " < "), (">", " > "),
   ("\"", " \" ")]

/-- Per-line loop of `_filter_source_tokens_without_comments` (vbnetparser.py
lines 246-261), parameterised by the comment markers; the Boolean argument is
the `active_block_comment` state. -/
def filterCommentLines (lm sb se : String) : Bool → List String → List String
  | _, [] => []
  | active, l :: ls =>
    if pyStartsWith (pyStrip l) "#Region" || pyStartsWith (pyStrip l) "#End Region" then
      filterCommentLines lm sb se active ls
    else if pyStartsWith (pyStrip l) sb then
      filterCommentLines lm sb se true ls
    else if pyStartsWith (pyStrip l) se then
      filterCommentLines lm sb se false ls
    else if pyStartsWith (pyStrip l) lm then
      filterCommentLines lm sb se active ls
    else if active then
      filterCommentLines lm sb se active ls
    else
      l :: filterCommentLines lm sb se active ls

/-- Function `_filter_source_tokens_without_comments(list_of_words, lm, sb, se)`
(vbnetparser.py lines 239-263): join the tokens with spaces, split into
lines, filter comment lines, rejoin with newlines. -/
def filterSourceTokensWithoutComments (tokens : List String) (lm sb se : String) : String :=
  joinWith "\n" (filterCommentLines lm sb se false (pySplitlines (joinWith " " tokens)))

/-- Characters accepted by `pp.Word(pp.alphanums + '_')`. -/
def isAlnumUnderscore (c : Char) : Bool :=
  ('a' ≤ c && c ≤ 'z') || ('A' ≤ c && c ≤ 'Z') || ('0' ≤ c && c ≤ '9') || c = '_'

/-- Modelled from: the pyparsing match expression of
`generate_entity_results_from_analysis` (vbnetparser.py lines 162-167),
`(Keyword(Class)|Keyword(Structure)|Keyword(Interface)|Keyword(Enum)) +
Word(alphanums + '_')`, applied with `parseString` to the space-joined
read-ahead string.  Tokens are joined by single spaces and pyparsing skips
whitespace (which absorbs the `"\n"` tokens), so on the token level the
expression succeeds iff the first non-newline token is one of the keywords
and the next non-newline token starts with at least one alphanumeric or
underscore character; the captured name is that maximal run. -/
def vbnetHeaderParse (tokens : List String) : Option String :=
  match tokens.filter (fun t => t ≠ "\n") with
  | k :: w :: _ =>
    if k ∈ vbnetEntityKeywords then
      match w.data.takeWhile isAlnumUnderscore with
      | [] => none
      | name => some ⟨name⟩
    else none
  | _ => none

/-- The body-capture `while` loop of `generate_entity_results_from_scopes`
(vbnetparser.py lines 344-376).  Returns the tokens appended to
`found_entities[entity_name]`, a flag that is `true` when the loop exited by
exhausting the token list (rather than by the depth-zero `break`), and the
number of iterations executed.  The fuel argument only makes the recursion
structural: every iteration advances `iterTokens` by at least one, so
`fuel = all_tokens.length` is always sufficient, and the iteration-count
bound below holds for every fuel. -/
def captureLoop (allT folT : List String) : Nat → Nat → Nat → Int →
    List String × Bool × Nat
  | 0, _, _, _ => ([], true, 0)
  | fuel + 1, i, j, scope =>
    if i < allT.length ∧ j < folT.length then
      let token := allT.getD i ""
      let next := folT.getD j ""
      let scope1 :=
        if vbnetOpenKeywords.any (fun k => pyIn k token) then scope + 1 else scope
      if token = "End" ∧ vbnetOpenKeywords.any (fun k => pyIn k next) then
        if scope1 - 1 = 0 then ([], false, 1)
        else
          let r := captureLoop allT folT fuel (i + 3) (j + 3) (scope1 - 1)
          (token :: r.1, r.2.1, r.2.2 + 1)
      else
        let r := captureLoop allT folT fuel (i + 1) (j + 1) scope1
        (token :: r.1, r.2.1, r.2.2 + 1)
    else ([], true, 0)

/-- Python-dict assignment `d[k] = v`: replace in place if the key is
present (keeping its position), else append. -/
def dictStore {α : Type} (m : List (String × α)) (k : String) (v : α) :
    List (String × α) :=
  if m.any (fun p => p.1 = k) then
    m.map (fun p => if p.1 = k then (k, v) else p)
  else m ++ [(k, v)]

/-- Python-dict lookup `d[k]` as an `Option`. -/
def dictLookup {α : Type} (m : List (String × α)) (k : String) : Option α :=
  (m.find? (fun p => p.1 = k)).map (fun p => p.2)

/-- The `for _, obj, following in self._gen_word_read_ahead(...)` loop of
`generate_entity_results_from_scopes` (vbnetparser.py lines 323-377),
accumulating `found_entities`, the hit counter and the miss counter.  On a
header-parse failure the loop `continue`s, which in the Python code skips
the `previous_obj = obj` update at the bottom of the loop body.  `following`
is `None` only at the sole index of a one-token list, where the Python code
would raise on `[obj] + None`; no input considered here reaches that state,
and the model reads it as the empty list. -/
def vbnetScopesLoop : List ReadAheadTriple → String →
    List (String × List String) → Nat → Nat →
    List (String × List String) × Nat × Nat
  | [], _, found, hits, misses => (found, hits, misses)
  | (_, obj, following) :: rest, prev, found, hits, misses =>
    if obj ∈ vbnetEntityKeywords ∧ prev ≠ "End" then
      let fol := following.getD []
      match vbnetHeaderParse (obj :: fol) with
      | none => vbnetScopesLoop rest prev found hits (misses + 1)
      | some name =>
        let allT := obj :: fol
        let folT := allT.drop 1 ++ [""]
        let body := (captureLoop allT folT allT.length 0 0 0).1
        vbnetScopesLoop rest obj (dictStore found name body) (hits + 1) misses
    else vbnetScopesLoop rest obj found hits misses

/-- Function `generate_entity_results_from_scopes(result, ...)` (vbnetparser.py lines
302-398) for the VB.NET keyword configuration: comment-strip the scanned
tokens, remove the empty-scope workarounds `{}` and `{ }`, retokenize, and
run the scope-matching loop.  Returns the `found_entities` association list
(in insertion order, which is the order the `EntityResult`s are created in)
together with the parsing-hit and parsing-miss counts. -/
def vbnetGenScopes (scannedTokens : List String) :
    List (String × List String) × Nat × Nat :=
  let src := filterSourceTokensWithoutComments scannedTokens "\x27" "\x27\x27" "\x27\x27"
  let src := pyReplaceStr "\x7b\x7d" "" src
  let src := pyReplaceStr "\x7b \x7d" "" src
  let toks := strTokenize src
  vbnetScopesLoop (genWordReadAhead toks) "" [] 0 0

/-- Function `remove_bom` (vbnetparser.py lines 82-86). -/
def vbnetRemoveBom (s : String) : String :=
  if pyStartsWith s "ï»¿" then ⟨s.data.drop 3⟩ else s

/-- The `#Region` token filter at the top of `preprocess_vbnet_source`
(vbnetparser.py lines 88-108): walk `zip(tokens, tokens[1:] + [""])`
carrying `token_before`, dropping `#Region` tokens, quoted region names and
the `#End` of an `#End Region` pair. -/
def vbnetRegionFilter : List (String × String) → String → List String
  | [], _ => []
  | (cur, nxt) :: rest, before =>
    let valid :=
      ¬ (cur = "#Region") ∧
      ¬ (before = "#Region" ∧ pyStartsWith (pyStrip cur) "\"") ∧
      ¬ (cur ++ " " ++ nxt = "#End Region")
    if valid then cur :: vbnetRegionFilter rest cur
    else vbnetRegionFilter rest cur

/-- Function `preprocess_vbnet_source(scanned_tokens)` (vbnetparser.py lines 88-118). -/
def vbnetPreprocessSource (scanned : List String) : List String :=
  let filtered := vbnetRegionFilter (scanned.zip (scanned.drop 1 ++ [""])) ""
  let src := filterSourceTokensWithoutComments filtered "\x27" "\x27\x27" "\x27\x27"
  tokenizeByMapping vbnetMappings src

/-- The scanned token list of a VB.NET `FileResult`
(`generate_file_result_from_analysis`, vbnetparser.py lines 120-144):
BOM removal, `\S+|\n` tokenization, then `preprocess_vbnet_source`. -/
def vbnetFileTokens (content : String) : List String :=
  vbnetPreprocessSource (strTokenize (vbnetRemoveBom content))

/-- The fields of a VB.NET `EntityResult` that the claims are about. -/
structure VbnetEntity where
  entityName : String
  scannedTokens : List String
  importDeps : List String
  inheritanceDeps : List String
deriving DecidableEq, Repr

/-- The `Imports`-statement extraction of
`_add_imports_to_single_entity_result` (vbnetparser.py lines 200-208): join
the read-ahead string, take the part before the first newline, strip it and
take the word after the first space; any failure (`IndexError` on a missing
second word) is caught and skipped. -/
def vbnetExtractImport (obj : String) (following : List String) : Option String :=
  let s := createReadAheadString obj following
  let importName := pyStrip (pySplitChar '\n' s |>.headD "")
  match pySplitChar ' ' importName with
  | _ :: second :: _ => some (pyStrip second)
  | _ => none

/-- Function `_add_imports_to_single_entity_result` (vbnetparser.py lines 193-214):
scan the file tokens, appending each `Imports` name, and stop at the first
token containing a namespace/entity keyword. -/
def vbnetAddImportsLoop : List ReadAheadTriple → List String → List String
  | [], acc => acc
  | (_, obj, following) :: rest, acc =>
    if obj = "Imports" then
      match vbnetExtractImport obj (following.getD []) with
      | some n => vbnetAddImportsLoop rest (acc ++ [n])
      | none => vbnetAddImportsLoop rest acc
    else if ["Namespace", "Class", "Structure", "Interface", "Enum"].any
        (fun k => pyIn k obj) then acc
    else vbnetAddImportsLoop rest acc

/-- Inheritance extraction of `_add_inheritance_to_entity_result`
(vbnetparser.py lines 215-230): walk `zip(tokens, tokens[1:] + [""])`
remembering the name following a `Class`/`Interface` token, and on an
`Inherits` token with a pending name return the next token. -/
def vbnetInheritanceScan : List (String × String) → String → Option String
  | [], _ => none
  | (cur, nxt) :: rest, cls =>
    let cls1 := if ["Class", "Interface"].any (fun k => pyIn k cur) then nxt else cls
    if cur = "Inherits" ∧ cls1 ≠ "" then some nxt
    else vbnetInheritanceScan rest cls1

/-- Function `_add_inheritance_to_entity_result` applied to an entity record. -/
def vbnetAddInheritance (e : VbnetEntity) : VbnetEntity :=
  match vbnetInheritanceScan (e.scannedTokens.zip (e.scannedTokens.drop 1 ++ [""])) "" with
  | some parent => { e with inheritanceDeps := e.inheritanceDeps ++ [parent] }
  | none => e

/-- Function `generate_entity_results_from_analysis` for one VB.NET file result
(vbnetparser.py lines 146-191): build the entity records found by
`generate_entity_results_from_scopes`, drop names on the ignore list, attach
the file-level `Imports`, then attach inheritance. -/
def vbnetGenerateEntities (fileTokens : List String) : List VbnetEntity :=
  let found := (vbnetGenScopes fileTokens).1
  let unfiltered := found.map (fun p =>
    VbnetEntity.mk p.1 p.2 [] [])
  let withImports := unfiltered.filterMap (fun e =>
    if e.entityName ∈ vbnetIgnoreEntityKeywords then none
    else some { e with
      importDeps := vbnetAddImportsLoop (genWordReadAhead fileTokens) e.importDeps })
  withImports.map vbnetAddInheritance

/-!
C# parser embedding (csharpparser.py).
-/

/-- Keywords whose substring occurrence stops the `using`-scan of
`_add_usings_to_single_entity_result` (csharpparser.py lines 222-227). -/
def csharpBreakKeywords : List String :=
  ["namespace", "class", "struct", "interface", "enum"]

/-- The `using`-statement extraction shared by the C# scans (csharpparser.py
lines 215-217 and 265-266): join the read-ahead string, take the part before
the first `;`, strip it; the dependency name is the word after the first
space.  A missing second word raises `IndexError` in Python, caught by the
surrounding `except`, modelled as `none`. -/
def csharpExtractUsing (obj : String) (following : List String) : Option String :=
  let s := createReadAheadString obj following
  let importName := pyStrip ⟨s.data.takeWhile (fun c => c ≠ ';')⟩
  match pySplitChar ' ' importName with
  | _ :: second :: _ => some (pyStrip second)
  | _ => none

/-- Function `_add_usings_to_single_entity_result(entity_result, scanned_tokens)`
(csharpparser.py lines 205-228): walk the file tokens with read-ahead,
appending every `using` name to the entity import list with no containment
check, and break at the first token containing an entity/namespace keyword. -/
def csharpAddUsingsToEntityLoop : List ReadAheadTriple → List String → List String
  | [], acc => acc
  | (_, obj, following) :: rest, acc =>
    if obj = "using" then
      match csharpExtractUsing obj (following.getD []) with
      | some n => csharpAddUsingsToEntityLoop rest (acc ++ [n])
      | none => csharpAddUsingsToEntityLoop rest acc
    else if csharpBreakKeywords.any (fun k => pyIn k obj) then acc
    else csharpAddUsingsToEntityLoop rest acc

/-- Import list of an entity after `_add_usings_to_single_entity_result`,
starting from its current list. -/
def csharpAddUsingsToEntity (scannedTokens entityImports : List String) : List String :=
  csharpAddUsingsToEntityLoop (genWordReadAhead scannedTokens) entityImports

/-- Character class of the file-level namespace pattern
`^\s*using\s+[a-zA-Z0-9_.]+$` (csharpparser.py line 255). -/
def isNamespaceChar (c : Char) : Bool :=
  ('a' ≤ c && c ≤ 'z') || ('A' ≤ c && c ≤ 'Z') || ('0' ≤ c && c ≤ '9') ||
  c = '_' || c = '.'

/-- Python `re.match` with the pattern `^\s*using\s+[a-zA-Z0-9_.]+$`, as a Boolean. -/
def matchesUsingDirective (s : String) : Bool :=
  let l := s.data.dropWhile pyIsSpace
  "using".data.isPrefixOf l &&
    (let r := l.drop 5
     match r with
     | c :: _ =>
       pyIsSpace c &&
         (let name := r.dropWhile pyIsSpace
          ¬ name.isEmpty && name.all isNamespaceChar)
     | [] => false)

/-- Per-file loop of `_add_usings_to_file_results` (csharpparser.py lines
261-270): append every `using` whose stripped statement matches the
namespace regex; the scan never breaks. -/
def csharpAddUsingsToFileLoop : List ReadAheadTriple → List String → List String
  | [], acc => acc
  | (_, obj, following) :: rest, acc =>
    if obj = "using" then
      let s := createReadAheadString obj (following.getD [])
      let importName := pyStrip ⟨s.data.takeWhile (fun c => c ≠ ';')⟩
      if matchesUsingDirective importName then
        match pySplitChar ' ' importName with
        | _ :: second :: _ => csharpAddUsingsToFileLoop rest (acc ++ [pyStrip second])
        | _ => csharpAddUsingsToFileLoop rest acc
      else csharpAddUsingsToFileLoop rest acc
    else csharpAddUsingsToFileLoop rest acc

/-- Import list of a `FileResult` after `_add_usings_to_file_results`. -/
def csharpAddUsingsToFile (scannedTokens : List String) : List String :=
  csharpAddUsingsToFileLoop (genWordReadAhead scannedTokens) []

/-- The namespace-parts walk of `_add_namespace_to_result` (csharpparser.py
lines 284-288): collect tokens until the next `{`; running off the end of
the token list raises `IndexError` in Python (caught by the handler),
modelled as `none`. -/
def csharpCollectNamespaceParts : List String → Option (List String)
  | [] => none
  | t :: ts =>
    if t = "\x7b" then some []
    else (csharpCollectNamespaceParts ts).map (fun ps => t :: ps)

/-- The suffix after the first `namespace` token, if any (the
`enumerate`/`break` search of `_add_namespace_to_result`). -/
def csharpAfterFirstNamespace : List String → Option (List String)
  | [] => none
  | t :: ts => if t = "namespace" then some ts else csharpAfterFirstNamespace ts

/-- Field `module_name` after `_add_namespace_to_result` (csharpparser.py lines
272-296).  The field starts as `""` (csharpparser.py line 113); it is
assigned only when the walk finds a `{` before the tokens run out, and the
`IndexError` path leaves it unset. -/
def csharpModuleName (tokens : List String) : String :=
  match csharpAfterFirstNamespace tokens with
  | none => ""
  | some rest =>
    match csharpCollectNamespaceParts rest with
    | some parts => joinWith "." parts
    | none => ""

/-- Second definition, following the words of the claim ("collects all tokens
from the token after the keyword up to (excluding) the next scope-open
token, joins them with '.', stops at the first match; if the token sequence
runs out before a scope-open token is found, module_name is left unset"),
written with list combinators instead of the index walk of the code. -/
def csharpModuleNameSpec (tokens : List String) : String :=
  if "namespace" ∈ tokens then
    let after := (tokens.dropWhile (fun t => t ≠ "namespace")).drop 1
    if "\x7b" ∈ after then joinWith "." (after.takeWhile (fun t => t ≠ "\x7b"))
    else ""
  else ""

/-- An entity record as registered by the C# parser; the numeric tag stands
for the identity of the `EntityResult` object (which file it came from). -/
structure CsEntity where
  entityName : String
  tag : Nat
deriving DecidableEq, Repr

/-- Function `create_unique_entity_name` (csharpparser.py lines 127-130): the unique
name is the entity name itself. -/
def csharpCreateUniqueEntityName (e : CsEntity) : String := e.entityName

/-- The registry store of `generate_entity_results_from_analysis`
(csharpparser.py line 190): `self._results[entity_result.entity_name] =
entity_result`, a plain dict assignment. -/
def csharpRegisterEntity (m : List (String × CsEntity)) (e : CsEntity) :
    List (String × CsEntity) :=
  dictStore m (csharpCreateUniqueEntityName e) e

/-!
CSS/SCSS parser embedding.  `_add_imports_to_entity_result` is textually
identical in cssparser.py (lines 124-129) and scssparser.py (lines 157-161).
-/

/-- Function `_add_imports_to_entity_result(entity_result)`: append each of the
parent file import dependencies to the entity list unless it is already
contained in it. -/
def cssAddImportsToEntity (fileImports entityImports : List String) : List String :=
  fileImports.foldl (fun acc imp => if imp ∈ acc then acc else acc ++ [imp])
    entityImports

/-- Joint state of the import lists of a parent `FileResult` and one of its
`EntityResult` records, for expressing when the copy happens. -/
structure ImportState where
  fileImports : List String
  entityImports : List String
deriving DecidableEq, Repr

/-- The attachment step: the entity receives the file imports as they are
at this moment. -/
def attachEntityImports (st : ImportState) : ImportState :=
  { st with entityImports := cssAddImportsToEntity st.fileImports st.entityImports }

/-- A later file-level import append (e.g. `after_generated_file_results`
running again, or `_add_imports_to_result`): only the file list grows. -/
def appendFileImport (y : String) (st : ImportState) : ImportState :=
  { st with fileImports := st.fileImports ++ [y] }

/-!
XML parser embedding (xmlparser.py).
-/

/-- The XML token-mapping table (xmlparser.py lines 43-51), in dict order. -/
def xmlMappings : List (String × String) :=
  [("<", " < "), (">", " > "), ("/", " / "), ("=", " = "), ("\"", " \" "),
   ("!--", " <!-- "), ("--", " -- ")]

/-- The scanned token list of an XML `FileResult`
(`generate_file_result_from_analysis`, xmlparser.py line 71). -/
def xmlFileTokens (content : String) : List String :=
  tokenizeByMapping xmlMappings content

/-- Function `_add_tags_to_result` (xmlparser.py lines 118-125): for every token
starting with `<`, record `token[1:].split(">")[0].strip()` as an import
dependency. -/
def xmlAddTags (tokens : List String) : List String :=
  tokens.filterMap (fun t =>
    if pyStartsWith t "<" then
      some (pyStrip ⟨(t.data.drop 1).takeWhile (fun c => c ≠ '>')⟩)
    else none)

/-- The C# token-mapping table (csharpparser.py lines 46-62). -/
def csharpMappings : List (String × String) :=
  [(":", " : "), (";", " ; "), ("\x7b", " \x7b "), ("\x7d", " \x7d "),
   ("(", " ( "), (")", " ) "), ("[", " [ "), ("]", " ] "), ("?", " ? "),
   ("!", " ! "), (",", " , "), ("<", " < "), (">", " > "), ("\"", " \" "),
   (".", " . ")]

/-- Second definition, following the words of claim C4: outside a block a line is
removed iff its trimmed prefix matches the line marker or it starts a block;
from a block-start line through the next block-stop line inclusive every
line is removed; no other line is removed. -/
def claimFilterLines (lm sb se : String) : Bool → List String → List String
  | _, [] => []
  | true, l :: ls =>
    if pyStartsWith (pyStrip l) se then claimFilterLines lm sb se false ls
    else claimFilterLines lm sb se true ls
  | false, l :: ls =>
    if pyStartsWith (pyStrip l) sb then claimFilterLines lm sb se true ls
    else if pyStartsWith (pyStrip l) lm then claimFilterLines lm sb se false ls
    else l :: claimFilterLines lm sb se false ls

/-- Whether one line is kept, per the amended claim: not a `#Region` /
`#End Region` line, not a block-start, block-stop or line-marker line, and
not inside an open block. -/
def amendedKeepLine (lm sb se : String) (active : Bool) (l : String) : Bool :=
  !(pyStartsWith (pyStrip l) "#Region" || pyStartsWith (pyStrip l) "#End Region") &&
  !(pyStartsWith (pyStrip l) sb) && !(pyStartsWith (pyStrip l) se) &&
  !(pyStartsWith (pyStrip l) lm) && !active

/-- Block state after one line, per the amended claim: `#Region` lines leave
it unchanged, a block-start line opens it, a block-stop line closes it (even
outside a block), all other lines leave it unchanged. -/
def amendedNextState (lm sb se : String) (active : Bool) (l : String) : Bool :=
  if pyStartsWith (pyStrip l) "#Region" || pyStartsWith (pyStrip l) "#End Region" then
    active
  else if pyStartsWith (pyStrip l) sb then true
  else if pyStartsWith (pyStrip l) se then false
  else active

/-- Second definition, following the amended claim C4, phrased as a
state-threaded fold keeping the lines `amendedKeepLine` accepts. -/
def amendedFilterLines (lm sb se : String) (active : Bool) (lines : List String) :
    List String :=
  (lines.foldl
    (fun st l =>
      (amendedNextState lm sb se st.1 l,
       if amendedKeepLine lm sb se st.1 l then st.2 ++ [l] else st.2))
    (active, [])).2

/-- The padded-substitution step as a single pass: every character in `cs`
becomes itself surrounded by spaces, every other character is kept.  The
sequential per-character replacements of a single-character padding map are
proved equal to this below. -/
def padSubst (cs : List Char) (s : List Char) : List Char :=
  s.flatMap (fun d => if d ∈ cs then [' ', d, ' '] else [d])

/-- Keys of the VB.NET mapping table, all single characters. -/
def vbnetMapChars : List Char :=
  [':', ';', '(', ')', '\x7b', '\x7d', '[', ']', '?', '!', ',', '<', '>', '"']

/-- Keys of the C# mapping table, all single characters. -/
def csharpMapChars : List Char :=
  [':', ';', '\x7b', '\x7d', '(', ')', '[', ']', '?', '!', ',', '<', '>', '"', '.']

/-- A character that belongs to a `\S+` token. -/
def isWordChar (c : Char) : Bool := !(pyIsSpace c)

/-- One single-character padded replacement
(`file_content.replace(c, ' ' + c + ' ')`). -/
def subst1 (c : Char) (s : List Char) : List Char :=
  s.flatMap (fun d => if d = c then [' ', c, ' '] else [d])

/-- Character-level `" ".join`. -/
def interSp : List (List Char) → List Char
  | [] => []
  | [x] => x
  | x :: xs => x ++ ' ' :: interSp xs

/-- The list starts with a space. -/
def headIsSpace (l : List Char) : Bool := l.head? = some ' '

/-- The list starts with `!-- ` (the glued remainder of the ` <!-- `
replacement text). -/
def headBangDashes (l : List Char) : Bool := l.take 4 = ['!', '-', '-', ' ']

/-- The list starts with `! ` (the glued remainder after the final `--`
padding). -/
def headBangSpace (l : List Char) : Bool := l.take 2 = ['!', ' ']

/-- Every `<` is immediately followed by a space (the state after the `<`
padding step of the XML mapping table). -/
def ltOK : List Char → Bool
  | [] => true
  | c :: rest => (if c = '<' then headIsSpace rest else true) && ltOK rest

/-- Every `<` is immediately followed by a space or by `!-- ` (the state
after the `!--` to ` <!-- ` replacement). -/
def ltOK2 : List Char → Bool
  | [] => true
  | c :: rest =>
    (if c = '<' then headIsSpace rest || headBangDashes rest else true) && ltOK2 rest

/-- Every `<` is immediately followed by a space or by `! ` (the state after
the final `--` to ` -- ` replacement). -/
def ltOK3 : List Char → Bool
  | [] => true
  | c :: rest =>
    (if c = '<' then headIsSpace rest || headBangSpace rest else true) && ltOK3 rest

/-!
Theorems.
-/

theorem dictLookup_map_store {α : Type} (k : String) (v : α) :
    ∀ m : List (String × α), m.any (fun p => p.1 = k) = true →
      dictLookup (m.map (fun p => if p.1 = k then (k, v) else p)) k = some v := by
  intro m
  induction m with
  | nil => simp
  | cons q m ih =>
    intro h
    by_cases hq : q.1 = k
    · simp [dictLookup, List.find?, hq]
    · simp only [List.any_cons, Bool.or_eq_true, decide_eq_true_eq] at h
      rcases h with h | h
      · exact absurd h hq
      · simpa [dictLookup, List.find?, hq] using ih h

theorem dictLookup_append_store {α : Type} (k : String) (v : α) :
    ∀ m : List (String × α), m.any (fun p => p.1 = k) = false →
      dictLookup (m ++ [(k, v)]) k = some v := by
  intro m
  induction m with
  | nil => simp [dictLookup, List.find?]
  | cons q m ih =>
    intro h
    simp only [List.any_cons, Bool.or_eq_false_iff, decide_eq_false_iff_not] at h
    simpa [dictLookup, List.find?, h.1] using ih h.2

theorem dictLookup_dictStore {α : Type} (m : List (String × α)) (k : String) (v : α) :
    dictLookup (dictStore m k v) k = some v := by
  unfold dictStore
  by_cases h : m.any (fun p => p.1 = k)
  · simpa [h] using dictLookup_map_store k v m h
  · simp only [Bool.not_eq_true] at h
    simpa [h] using dictLookup_append_store k v m h

/-- Claim C7: storing a record in the results registry under a key that is
already present silently replaces the earlier record (the store is a total
function, last-write-wins), and under the C# naming scheme
(`create_unique_entity_name` returns the bare entity name) registering two
`class Foo` entities from different files leaves exactly one record under
the key `Foo`, the later-registered one. -/
theorem csharp_registry_last_write_wins :
    (∀ (m : List (String × CsEntity)) (k : String) (v : CsEntity),
        dictLookup (dictStore m k v) k = some v) ∧
    csharpRegisterEntity (csharpRegisterEntity [] ⟨"Foo", 1⟩) ⟨"Foo", 2⟩ =
      [("Foo", ⟨"Foo", 2⟩)] :=
  ⟨fun m k v => dictLookup_dictStore m k v, by decide⟩

/-- Claim C2: entity extraction on the keyword-scoped source
`Class Foo\nInherits Bar\nEnd Class` produces exactly one entity result,
named `Foo`, with inheritance dependencies `["Bar"]`, whose token span is
the prefix of the file tokens that ends right before the closing
`End Class` pair. -/
theorem vbnet_class_foo_inherits_bar :
    vbnetGenerateEntities (vbnetFileTokens "Class Foo\nInherits Bar\nEnd Class") =
      [⟨"Foo", ["Class", "Foo", "\n", "Inherits", "Bar", "\n"], [], ["Bar"]⟩] ∧
    ["Class", "Foo", "\n", "Inherits", "Bar", "\n"] ++ ["End", "Class"] =
      vbnetFileTokens "Class Foo\nInherits Bar\nEnd Class" := by decide

theorem genReadAheadAux_closed :
    ∀ (suf : List String) (i : Nat) (fol : Option (List String)),
      genReadAheadAux suf i fol = (List.range suf.length).map (fun k =>
        (i + k, suf.getD k "",
          if k + 1 < suf.length then some (suf.drop (k + 1))
          else if suf.length = 1 then fol
          else some (suf.drop (suf.length - 1)))) := by
  intro suf
  induction suf with
  | nil => intro i fol; simp [genReadAheadAux]
  | cons w rest ih =>
    intro i fol
    simp only [genReadAheadAux, List.length_cons, List.range_succ_eq_map,
      List.map_cons, List.map_map]
    rw [List.cons_eq_cons]
    constructor
    · simp only [List.getD_cons_zero, Nat.add_zero]
      rcases rest with _ | ⟨r, rs⟩
      · simp
      · simp [List.isEmpty, Nat.succ_lt_succ_iff]
    · rw [ih]
      apply List.map_congr_left
      intro k hk
      rw [List.mem_range] at hk
      simp only [Function.comp_apply, List.getD_cons_succ, List.drop_succ_cons,
        Prod.mk.injEq]
      refine ⟨by omega, trivial, ?_⟩
      by_cases h1 : k + 1 < rest.length
      · have h2 : k.succ + 1 < rest.length + 1 := by omega
        simp [h1, h2, Nat.succ_eq_add_one]
      · have hne : ¬ (rest.length + 1 = 1) := by omega
        have h2 : ¬ (k.succ + 1 < rest.length + 1) := by omega
        simp only [h1, if_false, h2, if_false, hne, if_false]
        rcases rest with _ | ⟨r, rs⟩
        · simp at hk
        · by_cases h3 : (r :: rs).length = 1
          · have hrs : rs = [] := by
              cases rs with
              | nil => rfl
              | cons a as => simp at h3
            subst hrs
            simp [h3, List.isEmpty]
          · simp only [h3, if_false]
            have h4 : (r :: rs).length + 1 - 1 = ((r :: rs).length - 1) + 1 := by
              simp
            rw [h4, List.drop_succ_cons]

/-- Claim C5 (amended): the read-ahead generator yields exactly one triple
per token, in order; at index `i < n - 1` the remaining component is
`tokens[i+1:]`; at the last index the remaining component is not recomputed
and keeps the previous value — `tokens[n-1:]` (the one-element slice holding
the last token) when `n ≥ 2`, and the initial `None` for a singleton list.
Repeated invocations are equal by construction (the generator is a pure
function of the immutable list). -/
theorem gen_word_read_ahead_characterization (ws : List String) :
    genWordReadAhead ws = (List.range ws.length).map (fun i =>
      (i, ws.getD i "",
        if i + 1 < ws.length then some (ws.drop (i + 1))
        else if ws.length = 1 then none
        else some (ws.drop (ws.length - 1)))) := by
  simpa using genReadAheadAux_closed ws 0 none

/-- Claim C5 counterexample: on the two-token list `["a", "b"]` the
final triple of the generator carries `["b"]` — the stale slice from the previous
iteration — not the empty sequence of tokens after the last token that the
claim requires. -/
theorem c5_stale_following_counterexample :
    genWordReadAhead ["a", "b"] = [(0, "a", some ["b"]), (1, "b", some ["b"])] ∧
    genWordReadAhead ["a", "b"] ≠ [(0, "a", some ["b"]), (1, "b", some [])] := by
  decide

theorem captureLoop_oob (allT folT : List String) (fuel i j : Nat) (scope : Int)
    (h : allT.length ≤ i) :
    captureLoop allT folT fuel i j scope = ([], true, 0) := by
  cases fuel with
  | zero => rfl
  | succ n =>
    have : ¬ (i < allT.length ∧ j < folT.length) := by omega
    simp only [captureLoop, this, if_false]

theorem captureLoop_steps_le (allT folT : List String) :
    ∀ (fuel i j : Nat) (scope : Int),
      (captureLoop allT folT fuel i j scope).2.2 ≤ allT.length - i := by
  intro fuel
  induction fuel with
  | zero => intro i j scope; simp [captureLoop]
  | succ n ih =>
    intro i j scope
    simp only [captureLoop]
    split_ifs
    all_goals first
      | (refine Nat.le_trans (Nat.add_le_add_right (ih (i + 3) (j + 3) _) 1) ?_
         omega)
      | (refine Nat.le_trans (Nat.add_le_add_right (ih (i + 1) (j + 1) _) 1) ?_
         omega)
      | (show (0 : Nat) ≤ _
         omega)
      | (show (1 : Nat) ≤ _
         omega)

theorem captureLoop_fuel_stable (allT folT : List String) :
    ∀ (f g i j : Nat) (scope : Int), allT.length - i ≤ f → allT.length - i ≤ g →
      captureLoop allT folT f i j scope = captureLoop allT folT g i j scope := by
  intro f
  induction f with
  | zero =>
    intro g i j scope hf hg
    rw [captureLoop_oob allT folT 0 i j scope (by omega),
        captureLoop_oob allT folT g i j scope (by omega)]
  | succ n ih =>
    intro g i j scope hf hg
    by_cases hi : allT.length ≤ i
    · rw [captureLoop_oob allT folT (n + 1) i j scope hi,
          captureLoop_oob allT folT g i j scope hi]
    · cases g with
      | zero => omega
      | succ m =>
        simp only [captureLoop]
        split_ifs
        all_goals first
          | rfl
          | rw [ih m (i + 3) (j + 3) _ (by omega) (by omega)]
          | rw [ih m (i + 1) (j + 1) _ (by omega) (by omega)]

/-- Claim C1 (amended): the body-capture loop of
`generate_entity_results_from_scopes` always terminates, and its iteration
count is bounded by the number of tokens from the current position to the
end of the captured token list, whatever the fuel; moreover any fuel of at
least that bound (in particular the `all_tokens` length the caller provides)
yields the same result, so the fuel is only a termination device.  The
exhaustion of an unbalanced input is not reported as a parse miss (see the
counterexample): the miss counter counts only header-grammar failures. -/
theorem capture_loop_terminates_within_token_bound :
    (∀ (allT folT : List String) (fuel i j : Nat) (scope : Int),
        (captureLoop allT folT fuel i j scope).2.2 ≤ allT.length - i) ∧
    (∀ (allT folT : List String) (k i j : Nat) (scope : Int),
        captureLoop allT folT (allT.length - i + k) i j scope =
          captureLoop allT folT (allT.length - i) i j scope) :=
  ⟨fun allT folT fuel i j scope => captureLoop_steps_le allT folT fuel i j scope,
   fun allT folT k i j scope =>
     captureLoop_fuel_stable allT folT _ _ i j scope (by omega) (by omega)⟩

/-- Claim C1 counterexample: on the unbalanced source tokens
`Class Foo \n Sub Bar` (a `Sub` opened inside the class, never closed) the
body-capture loop exits by exhaustion, yet `generate_entity_results_from_scopes`
records one parsing hit and zero parsing misses — exhaustion is not counted
as a miss, contrary to the claim. -/
theorem c1_exhaustion_not_a_parse_miss :
    (captureLoop ["Class", "Foo", "\n", "Sub", "Bar"]
        ["Foo", "\n", "Sub", "Bar", ""] 5 0 0 0).2.1 = true ∧
    (vbnetGenScopes ["Class", "Foo", "\n", "Sub", "Bar"]).2.2 = 0 ∧
    (vbnetGenScopes ["Class", "Foo", "\n", "Sub", "Bar"]).2.1 = 1 := by decide

theorem mem_cssAdd_of_mem_acc (x : String) :
    ∀ (fi acc : List String), x ∈ acc → x ∈ cssAddImportsToEntity fi acc := by
  intro fi
  induction fi with
  | nil => intro acc hx; simpa [cssAddImportsToEntity] using hx
  | cons f fs ih =>
    intro acc hx
    simp only [cssAddImportsToEntity, List.foldl_cons] at ih ⊢
    apply ih
    by_cases hf : f ∈ acc
    · simpa [hf] using hx
    · simp only [hf, if_false]
      exact List.mem_append_left _ hx

theorem mem_cssAdd_of_mem_file (x : String) :
    ∀ (fi acc : List String), x ∈ fi → x ∈ cssAddImportsToEntity fi acc := by
  intro fi
  induction fi with
  | nil => intro acc hx; simp at hx
  | cons f fs ih =>
    intro acc hx
    rcases List.mem_cons.mp hx with hx | hx
    · subst hx
      simp only [cssAddImportsToEntity, List.foldl_cons]
      have hmem : x ∈ if x ∈ acc then acc else acc ++ [x] := by
        by_cases hf : x ∈ acc
        · simpa [hf] using hf
        · simp [hf]
      exact mem_cssAdd_of_mem_acc x fs _ hmem
    · simp only [cssAddImportsToEntity, List.foldl_cons]
      exact ih _ hx

/-- Claim C3 (amended): for the CSS/SCSS attachment, which copies the owning
file imports with a containment check, the entity import list after
attachment contains every import the file had at attachment time, and a
file-level import appended after the attachment never changes the entity
list.  (For the C# parser the superset half fails, see the counterexample:
its entity attachment re-scans the file tokens and stops at the first
entity/namespace keyword, so file imports recorded from later tokens are
missing from the entity.) -/
theorem css_entity_imports_superset_not_retroactive
    (fi ei : List String) (x : String) (hx : x ∈ fi) (y : String) (st : ImportState) :
    x ∈ cssAddImportsToEntity fi ei ∧
    (appendFileImport y (attachEntityImports st)).entityImports =
      (attachEntityImports st).entityImports :=
  ⟨mem_cssAdd_of_mem_file x fi ei hx, rfl⟩

theorem css_entity_imports_superset_not_retroactive_witness :
    "A" ∈ ["A"] ∧
    ("A" ∈ cssAddImportsToEntity ["A"] [] ∧
      (appendFileImport "B" (attachEntityImports ⟨["A"], []⟩)).entityImports =
        (attachEntityImports ⟨["A"], []⟩).entityImports) :=
  ⟨by decide,
   css_entity_imports_superset_not_retroactive ["A"] [] "A" (by decide) "B" ⟨["A"], []⟩⟩

/-- Claim C3 counterexample: in a C# file whose tokens are
`using A ; class C { } using B`, the file-level scan records `["A", "B"]`
(both statements match the namespace pattern), but the entity attachment
stops at `class` and gives the entity only `["A"]` — the entity list is
not a superset of the file list at attachment time. -/
theorem c3_csharp_superset_counterexample :
    csharpAddUsingsToFile
        ["using", "A", ";", "class", "C", "\x7b", "\x7d", "using", "B"] =
      ["A", "B"] ∧
    csharpAddUsingsToEntity
        ["using", "A", ";", "class", "C", "\x7b", "\x7d", "using", "B"] [] = ["A"] ∧
    "B" ∉ csharpAddUsingsToEntity
        ["using", "A", ";", "class", "C", "\x7b", "\x7d", "using", "B"] [] := by
  decide

theorem cssAdd_nodup :
    ∀ (fi acc : List String), acc.Nodup → (cssAddImportsToEntity fi acc).Nodup := by
  intro fi
  induction fi with
  | nil => intro acc h; simpa [cssAddImportsToEntity] using h
  | cons f fs ih =>
    intro acc h
    simp only [cssAddImportsToEntity, List.foldl_cons] at ih ⊢
    apply ih
    by_cases hf : f ∈ acc
    · simpa [hf] using h
    · simp [hf, List.nodup_append, h]

/-- Claim C9 (amended): the CSS/SCSS attachment inserts each file import
only after a containment check, so attachment never introduces a duplicate:
a duplicate-free entity list stays duplicate-free.  (The C# attachment
appends with no containment check and can introduce duplicates, see the
counterexample.) -/
theorem css_attach_never_introduces_duplicates (fi ei : List String)
    (h : ei.Nodup) : (cssAddImportsToEntity fi ei).Nodup :=
  cssAdd_nodup fi ei h

theorem css_attach_never_introduces_duplicates_witness :
    List.Nodup ([] : List String) ∧
    (cssAddImportsToEntity ["A", "A"] []).Nodup :=
  ⟨by decide, css_attach_never_introduces_duplicates ["A", "A"] [] (by decide)⟩

/-- Claim C9 counterexample: the C# entity attachment, fed a file with two
identical `using A ;` statements before the class, appends `A` twice — the
attachment introduces a duplicate into the entity import list. -/
theorem c9_csharp_duplicate_counterexample :
    csharpAddUsingsToEntity ["using", "A", ";", "using", "A", ";", "class", "C"] [] =
      ["A", "A"] ∧
    ¬ (csharpAddUsingsToEntity
        ["using", "A", ";", "using", "A", ";", "class", "C"] []).Nodup := by
  decide

theorem csharpAfterFirstNamespace_eq :
    ∀ tokens : List String, csharpAfterFirstNamespace tokens =
      if "namespace" ∈ tokens
      then some ((tokens.dropWhile (fun t => t ≠ "namespace")).drop 1)
      else none := by
  intro tokens
  induction tokens with
  | nil => simp [csharpAfterFirstNamespace]
  | cons t ts ih =>
    by_cases h : t = "namespace"
    · subst h
      simp [csharpAfterFirstNamespace, List.dropWhile_cons]
    · have h2 : ¬ ("namespace" = t) := fun e => h e.symm
      simp [csharpAfterFirstNamespace, h, h2, List.dropWhile_cons, ih]

theorem csharpCollectNamespaceParts_eq :
    ∀ rest : List String, csharpCollectNamespaceParts rest =
      if "\x7b" ∈ rest then some (rest.takeWhile (fun t => t ≠ "\x7b")) else none := by
  intro rest
  induction rest with
  | nil => simp [csharpCollectNamespaceParts]
  | cons t ts ih =>
    by_cases h : t = "\x7b"
    · subst h
      simp [csharpCollectNamespaceParts, List.takeWhile_cons]
    · have h2 : ¬ ("\x7b" = t) := fun e => h e.symm
      simp only [csharpCollectNamespaceParts, h, if_false, ih, List.takeWhile_cons,
        List.mem_cons, h2, false_or]
      by_cases hb : "\x7b" ∈ ts
      · simp [hb, h]
      · simp [hb]

/-- Claim C8: `_add_namespace_to_result` computes exactly what the claim
describes — it uses the first `namespace` token, collects the tokens after
it up to but excluding the next scope-open token, joins them with `.`, and
leaves the module name empty (no exception escaping, the walk is total) when
the tokens run out before a scope-open token or when there is no `namespace`
token at all.  Stated as equality with `csharpModuleNameSpec`, the direct
transcription of the claim. -/
theorem csharp_namespace_first_match_and_runoff (tokens : List String) :
    csharpModuleName tokens = csharpModuleNameSpec tokens := by
  by_cases h : "namespace" ∈ tokens
  · simp only [csharpModuleName, csharpModuleNameSpec, csharpAfterFirstNamespace_eq,
      h, if_true]
    rw [csharpCollectNamespaceParts_eq]
    by_cases hb : "\x7b" ∈ (tokens.dropWhile (fun t => t ≠ "namespace")).drop 1
    · rw [if_pos hb, if_pos hb]
    · rw [if_neg hb, if_neg hb]
  · simp [csharpModuleName, csharpModuleNameSpec, csharpAfterFirstNamespace_eq, h]

theorem amendedFilter_go (lm sb se : String) :
    ∀ (lines : List String) (st : Bool) (acc : List String),
      (List.foldl
        (fun p l =>
          (amendedNextState lm sb se p.1 l,
           if amendedKeepLine lm sb se p.1 l then p.2 ++ [l] else p.2))
        (st, acc) lines).2
      = acc ++ (List.foldl
        (fun p l =>
          (amendedNextState lm sb se p.1 l,
           if amendedKeepLine lm sb se p.1 l then p.2 ++ [l] else p.2))
        (st, []) lines).2 := by
  intro lines
  induction lines with
  | nil => intro st acc; simp
  | cons l ls ih =>
    intro st acc
    simp only [List.foldl_cons]
    by_cases hk : amendedKeepLine lm sb se st l = true
    · rw [if_pos hk, if_pos hk]
      rw [ih _ (acc ++ [l]), ih _ ([] ++ [l])]
      simp
    · rw [if_neg hk, if_neg hk]
      exact ih _ acc

theorem amendedFilterLines_cons (lm sb se : String) (st : Bool) (l : String)
    (ls : List String) :
    amendedFilterLines lm sb se st (l :: ls) =
      (if amendedKeepLine lm sb se st l then [l] else []) ++
        amendedFilterLines lm sb se (amendedNextState lm sb se st l) ls := by
  unfold amendedFilterLines
  simp only [List.foldl_cons]
  by_cases hk : amendedKeepLine lm sb se st l = true
  · rw [if_pos hk, if_pos hk]
    simpa using amendedFilter_go lm sb se ls _ [l]
  · rw [if_neg hk, if_neg hk]
    simp

theorem filterCommentLines_eq_amended (lm sb se : String) :
    ∀ (lines : List String) (st : Bool),
      filterCommentLines lm sb se st lines = amendedFilterLines lm sb se st lines := by
  intro lines
  induction lines with
  | nil => intro st; rfl
  | cons l ls ih =>
    intro st
    rw [amendedFilterLines_cons]
    by_cases h1 : (pyStartsWith (pyStrip l) "#Region"
        || pyStartsWith (pyStrip l) "#End Region") = true
    · simp [filterCommentLines, amendedKeepLine, amendedNextState, h1, ih]
    · by_cases h2 : pyStartsWith (pyStrip l) sb = true
      · simp [filterCommentLines, amendedKeepLine, amendedNextState, h1, h2, ih]
      · by_cases h3 : pyStartsWith (pyStrip l) se = true
        · simp [filterCommentLines, amendedKeepLine, amendedNextState, h1, h2, h3, ih]
        · by_cases h4 : pyStartsWith (pyStrip l) lm = true
          · simp [filterCommentLines, amendedKeepLine, amendedNextState,
              h1, h2, h3, h4, ih]
          · by_cases h5 : st = true
            · simp [filterCommentLines, amendedKeepLine, amendedNextState,
                h1, h2, h3, h4, h5, ih]
            · simp [filterCommentLines, amendedKeepLine, amendedNextState,
                h1, h2, h3, h4, h5, ih]

theorem filterCommentLines_sublist (lm sb se : String) :
    ∀ (lines : List String) (st : Bool),
      (filterCommentLines lm sb se st lines).Sublist lines := by
  intro lines
  induction lines with
  | nil => intro st; simp [filterCommentLines]
  | cons l ls ih =>
    intro st
    simp only [filterCommentLines]
    split_ifs
    all_goals first
      | exact List.Sublist.cons l (ih _)
      | exact List.Sublist.cons₂ l (ih _)

/-- Claim C4 (amended): the comment filter removes every line whose trimmed
prefix matches the line marker, every line from a block-start line through
the next block-stop line inclusive, every line whose trimmed prefix is
`#Region` or `#End Region` (independent of the configured markers, leaving
the block state unchanged), and every line whose trimmed prefix matches the
block-stop marker even outside a block (resetting the block state); no other
line is removed, and the surviving lines keep their original order (the
output is a sublist of the input).  Stated as equality with
`amendedFilterLines`, the transcription of the amended claim, plus the
sublist property. -/
theorem comment_filter_amended_characterization (lm sb se : String)
    (lines : List String) (st : Bool) :
    filterCommentLines lm sb se st lines = amendedFilterLines lm sb se st lines ∧
    (filterCommentLines lm sb se st lines).Sublist lines :=
  ⟨filterCommentLines_eq_amended lm sb se lines st,
   filterCommentLines_sublist lm sb se lines st⟩

/-- Claim C4 counterexample: with markers `//`, `/*`, `*/` the code filter
removes the line `#Region X` (which matches no marker) and removes a
block-stop line appearing outside any block, while the claim — transcribed
as `claimFilterLines` — keeps both. -/
theorem c4_extra_removals_counterexample :
    filterSourceTokensWithoutComments ["#Region", "X", "\n", "b"] "//" "/*" "*/" =
      " b" ∧
    claimFilterLines "//" "/*" "*/" false
        (pySplitlines (joinWith " " ["#Region", "X", "\n", "b"])) =
      ["#Region X ", " b"] ∧
    filterCommentLines "//" "/*" "*/" false ["*/ end", "b"] = ["b"] ∧
    claimFilterLines "//" "/*" "*/" false ["*/ end", "b"] = ["*/ end", "b"] := by
  decide

theorem tokenizeL_nil : tokenizeL [] = [] := rfl

theorem tokenizeL_newline (cs : List Char) :
    tokenizeL ('\n' :: cs) = ['\n'] :: tokenizeL cs := by
  simp [tokenizeL, tokenizeAux]

theorem tokenizeL_space (c : Char) (cs : List Char) (h : pyIsSpace c = true)
    (h2 : c ≠ '\n') : tokenizeL (c :: cs) = tokenizeL cs := by
  simp [tokenizeL, tokenizeAux, h, h2]

theorem tokenizeAux_acc :
    ∀ (s : List Char) (a : Char) (acc : List Char),
      tokenizeAux s (a :: acc) =
        ((a :: acc).reverse ++ s.takeWhile isWordChar) ::
          tokenizeL (s.dropWhile isWordChar) := by
  intro s
  induction s with
  | nil => intro a acc; simp [tokenizeAux, tokenizeL]
  | cons c cs ih =>
    intro a acc
    by_cases hn : c = '\n'
    · subst hn
      simp [tokenizeAux, tokenizeL, List.takeWhile_cons, List.dropWhile_cons,
        isWordChar, pyIsSpace, tokenizeL_newline]
    · by_cases hs : pyIsSpace c = true
      · have hw : isWordChar c = false := by simp [isWordChar, hs]
        simp [tokenizeAux, tokenizeL, hn, hs, List.takeWhile_cons,
          List.dropWhile_cons, hw, tokenizeL_space c cs hs hn]
      · have hw : isWordChar c = true := by simp [isWordChar, hs]
        have hbranch : tokenizeAux (c :: cs) (a :: acc) = tokenizeAux cs (c :: a :: acc) := by
          simp [tokenizeAux, hn, hs]
        rw [hbranch, ih c (a :: acc)]
        simp [List.takeWhile_cons, List.dropWhile_cons, hw]

theorem tokenizeL_word (c : Char) (cs : List Char) (h : pyIsSpace c = false) :
    tokenizeL (c :: cs) =
      (c :: cs.takeWhile isWordChar) :: tokenizeL (cs.dropWhile isWordChar) := by
  have hn : c ≠ '\n' := by
    intro e; subst e; simp [pyIsSpace] at h
  have : tokenizeL (c :: cs) = tokenizeAux cs [c] := by
    simp [tokenizeL, tokenizeAux, hn, h]
  rw [this, tokenizeAux_acc cs c []]
  simp

theorem takeWhile_append_stop {p : Char → Bool} (y : Char) (hy : p y = false) :
    ∀ (xs ys : List Char), (xs ++ y :: ys).takeWhile p = xs.takeWhile p := by
  intro xs ys
  induction xs with
  | nil => simp [List.takeWhile_cons, hy]
  | cons x xs ih =>
    by_cases hx : p x = true
    · simp [List.takeWhile_cons, hx, ih]
    · simp only [Bool.not_eq_true] at hx
      simp [List.takeWhile_cons, hx]

theorem dropWhile_append_stop {p : Char → Bool} (y : Char) (hy : p y = false) :
    ∀ (xs ys : List Char), (xs ++ y :: ys).dropWhile p = xs.dropWhile p ++ y :: ys := by
  intro xs ys
  induction xs with
  | nil => simp [List.dropWhile_cons, hy]
  | cons x xs ih =>
    by_cases hx : p x = true
    · simp [List.dropWhile_cons, hx, ih]
    · simp only [Bool.not_eq_true] at hx
      simp [List.dropWhile_cons, hx]

theorem length_dropWhile_le (p : Char → Bool) :
    ∀ l : List Char, (l.dropWhile p).length ≤ l.length := by
  intro l
  induction l with
  | nil => simp
  | cons c cs ih =>
    by_cases hc : p c = true
    · simp only [List.dropWhile_cons, hc, if_true]
      exact Nat.le_trans ih (Nat.le_succ _)
    · simp only [Bool.not_eq_true] at hc
      simp [List.dropWhile_cons, hc]

theorem tokenizeL_append_space_aux :
    ∀ (n : Nat) (a b : List Char), a.length ≤ n →
      tokenizeL (a ++ ' ' :: b) = tokenizeL a ++ tokenizeL b := by
  intro n
  induction n with
  | zero =>
    intro a b ha
    have : a = [] := List.length_eq_zero.mp (Nat.le_zero.mp ha)
    subst this
    simp [tokenizeL_space ' ' b (by simp [pyIsSpace]) (by decide), tokenizeL_nil]
  | succ n ih =>
    intro a b ha
    cases a with
    | nil => simp [tokenizeL_space ' ' b (by simp [pyIsSpace]) (by decide), tokenizeL_nil]
    | cons c cs =>
      by_cases hn : c = '\n'
      · subst hn
        rw [List.cons_append, tokenizeL_newline, tokenizeL_newline,
          ih cs b (by simpa using Nat.succ_le_succ_iff.mp ha)]
        simp
      · by_cases hs : pyIsSpace c = true
        · rw [List.cons_append, tokenizeL_space c _ hs hn, tokenizeL_space c _ hs hn,
            ih cs b (by simpa using Nat.succ_le_succ_iff.mp ha)]
        · have hs' : pyIsSpace c = false := by simpa using hs
          have hsp : isWordChar ' ' = false := by decide
          rw [List.cons_append, tokenizeL_word c _ hs', tokenizeL_word c _ hs',
            takeWhile_append_stop ' ' hsp, dropWhile_append_stop ' ' hsp,
            ih (cs.dropWhile isWordChar) b
              (Nat.le_trans (length_dropWhile_le _ _)
                (by simpa using Nat.succ_le_succ_iff.mp ha))]
          simp

theorem tokenizeL_append_space (a b : List Char) :
    tokenizeL (a ++ ' ' :: b) = tokenizeL a ++ tokenizeL b :=
  tokenizeL_append_space_aux a.length a b (Nat.le_refl _)

theorem tokenizeL_interSp :
    ∀ us : List (List Char), tokenizeL (interSp us) = us.flatMap tokenizeL := by
  intro us
  induction us with
  | nil => rfl
  | cons x us ih =>
    cases us with
    | nil => simp [interSp]
    | cons y ys =>
      rw [show interSp (x :: y :: ys) = x ++ ' ' :: interSp (y :: ys) from rfl,
        tokenizeL_append_space, ih]
      simp

theorem pyReplaceFuel_single (c : Char) (r : List Char) :
    ∀ (fuel : Nat) (s : List Char), s.length ≤ fuel →
      pyReplaceFuel [c] r fuel s =
        s.flatMap (fun d => if d = c then r else [d]) := by
  intro fuel
  induction fuel with
  | zero =>
    intro s hs
    have : s = [] := List.length_eq_zero.mp (Nat.le_zero.mp hs)
    subst this
    rfl
  | succ n ih =>
    intro s hs
    cases s with
    | nil => rfl
    | cons d ds =>
      have hds : ds.length ≤ n := by simpa using Nat.succ_le_succ_iff.mp hs
      by_cases hd : d = c
      · subst hd
        have hpre : [d].isPrefixOf (d :: ds) = true := by
          simp [List.isPrefixOf]
        simp only [pyReplaceFuel, hpre, if_true]
        rw [show [d].length - 1 = 0 from rfl, List.drop_zero, ih ds hds]
        simp
      · have hpre : [c].isPrefixOf (d :: ds) = false := by
          simp only [List.isPrefixOf, Bool.and_eq_false_iff]
          left
          simp [beq_iff_eq]
          exact fun e => hd e.symm
        simp only [pyReplaceFuel, hpre, if_false]
        rw [ih ds hds]
        simp [hd]

theorem pyReplace_single (c : Char) (r : List Char) (s : List Char) :
    pyReplace [c] r s = s.flatMap (fun d => if d = c then r else [d]) := by
  unfold pyReplace
  rw [if_neg (by simp)]
  exact pyReplaceFuel_single c r s.length s (Nat.le_refl _)

theorem flatMap_congr_mem {α β : Type} (f g : α → List β) :
    ∀ l : List α, (∀ a ∈ l, f a = g a) → l.flatMap f = l.flatMap g := by
  intro l
  induction l with
  | nil => intro _; rfl
  | cons a l ih =>
    intro h
    simp only [List.flatMap_cons]
    rw [h a (List.mem_cons_self a l), ih (fun b hb => h b (List.mem_cons_of_mem a hb))]

theorem flatMap_id_of_nospecial {cs : List Char} :
    ∀ s : List Char, (∀ d ∈ s, d ∉ cs) → padSubst cs s = s := by
  intro s
  induction s with
  | nil => intro _; rfl
  | cons d ds ih =>
    intro h
    simp only [padSubst, List.flatMap_cons] at ih ⊢
    rw [if_neg (h d (List.mem_cons_self d ds)),
      ih (fun b hb => h b (List.mem_cons_of_mem d hb))]
    rfl

theorem applyMappings_pad_chars :
    ∀ (cs : List Char) (s : List Char),
      applyMappings (cs.map (fun c => (⟨[c]⟩, ⟨[' ', c, ' ']⟩))) s =
        cs.foldl (fun acc c => subst1 c acc) s := by
  intro cs
  induction cs with
  | nil => intro s; rfl
  | cons c cs ih =>
    intro s
    show applyMappings _ (pyReplace [c] [' ', c, ' '] s) = _
    rw [pyReplace_single]
    exact ih (subst1 c s)

theorem foldl_subst1_eq_padSubst :
    ∀ cs : List Char, cs.Nodup → (∀ c ∈ cs, pyIsSpace c = false) →
      ∀ s, cs.foldl (fun acc c => subst1 c acc) s = padSubst cs s := by
  intro cs
  induction cs with
  | nil =>
    intro _ _ s
    simp only [List.foldl_nil]
    induction s with
    | nil => rfl
    | cons d ds ihs =>
      simp only [padSubst, List.flatMap_cons, List.not_mem_nil, if_false] at ihs ⊢
      rw [← ihs]
      rfl
  | cons c cs ih =>
    intro hnd hns s
    have hcs : cs.Nodup := hnd.of_cons
    have hcn : c ∉ cs := by
      have := List.nodup_cons.mp hnd
      exact this.1
    have hnsc : ∀ x ∈ cs, pyIsSpace x = false :=
      fun x hx => hns x (List.mem_cons_of_mem c hx)
    have hsp : ' ' ∉ cs := by
      intro hmem
      have := hnsc ' ' hmem
      simp [pyIsSpace] at this
    simp only [List.foldl_cons]
    rw [ih hcs hnsc (subst1 c s)]
    unfold padSubst subst1
    rw [List.flatMap_assoc]
    apply flatMap_congr_mem
    intro d _
    by_cases hd : d = c
    · subst hd
      simp only [if_pos rfl, List.mem_cons, true_or, if_true]
      simp [List.flatMap_cons, hsp, hcn]
    · simp only [if_neg hd, List.flatMap_cons, List.flatMap_nil, List.append_nil,
        List.mem_cons]
      by_cases hdc : d ∈ cs
      · simp [hdc, hd]
      · simp [hdc, hd]

theorem takeWhile_all {p : Char → Bool} :
    ∀ l : List Char, (∀ c ∈ l, p c = true) → l.takeWhile p = l := by
  intro l
  induction l with
  | nil => intro _; rfl
  | cons c cs ih =>
    intro h
    rw [List.takeWhile_cons, if_pos (h c (List.mem_cons_self c cs)),
      ih (fun b hb => h b (List.mem_cons_of_mem c hb))]

theorem dropWhile_all {p : Char → Bool} :
    ∀ l : List Char, (∀ c ∈ l, p c = true) → l.dropWhile p = [] := by
  intro l
  induction l with
  | nil => intro _; rfl
  | cons c cs ih =>
    intro h
    rw [List.dropWhile_cons, if_pos (h c (List.mem_cons_self c cs)),
      ih (fun b hb => h b (List.mem_cons_of_mem c hb))]

theorem takeWhile_padSubst (cs : List Char) :
    ∀ s : List Char, (padSubst cs s).takeWhile isWordChar =
      s.takeWhile (fun d => isWordChar d && !(decide (d ∈ cs))) := by
  intro s
  induction s with
  | nil => rfl
  | cons d ds ih =>
    by_cases hd : d ∈ cs
    · have : padSubst cs (d :: ds) = ' ' :: d :: ' ' :: padSubst cs ds := by
        simp [padSubst, hd]
      rw [this]
      simp [List.takeWhile_cons, isWordChar, pyIsSpace, hd]
    · have hstep : padSubst cs (d :: ds) = d :: padSubst cs ds := by
        simp [padSubst, hd]
      rw [hstep]
      by_cases hw : isWordChar d = true
      · simp [List.takeWhile_cons, hw, hd, ih]
      · simp only [Bool.not_eq_true] at hw
        simp [List.takeWhile_cons, hw, hd]

theorem dropWhile_padSubst (cs : List Char) :
    ∀ s : List Char, (padSubst cs s).dropWhile isWordChar =
      padSubst cs (s.dropWhile (fun d => isWordChar d && !(decide (d ∈ cs)))) := by
  intro s
  induction s with
  | nil => rfl
  | cons d ds ih =>
    by_cases hd : d ∈ cs
    · have : padSubst cs (d :: ds) = ' ' :: d :: ' ' :: padSubst cs ds := by
        simp [padSubst, hd]
      rw [this]
      have hsp : isWordChar ' ' = false := by decide
      simp only [List.dropWhile_cons, hsp, if_false, hd]
      simp [this, hd]
    · have hstep : padSubst cs (d :: ds) = d :: padSubst cs ds := by
        simp [padSubst, hd]
      rw [hstep]
      by_cases hw : isWordChar d = true
      · simp [List.dropWhile_cons, hw, hd, ih]
      · simp only [Bool.not_eq_true] at hw
        simp only [List.dropWhile_cons, hw, if_false, hd, Bool.false_and,
          Bool.and_eq_true, decide_eq_true_eq]
        rw [← hstep]
        simp [hw]

theorem tokenizeL_atoms_aux :
    ∀ (n : Nat) (u : List Char), u.length ≤ n → ∀ t ∈ tokenizeL u,
      t = ['\n'] ∨ (t ≠ [] ∧ ∀ c ∈ t, pyIsSpace c = false) := by
  intro n
  induction n with
  | zero =>
    intro u hu t ht
    have : u = [] := List.length_eq_zero.mp (Nat.le_zero.mp hu)
    subst this
    simp [tokenizeL_nil] at ht
  | succ n ih =>
    intro u hu t ht
    cases u with
    | nil => simp [tokenizeL_nil] at ht
    | cons c cu =>
      have hcu : cu.length ≤ n := by simpa using Nat.succ_le_succ_iff.mp hu
      by_cases hn : c = '\n'
      · subst hn
        rw [tokenizeL_newline] at ht
        rcases List.mem_cons.mp ht with rfl | ht
        · exact Or.inl rfl
        · exact ih cu hcu t ht
      · by_cases hs : pyIsSpace c = true
        · rw [tokenizeL_space c cu hs hn] at ht
          exact ih cu hcu t ht
        · have hs' : pyIsSpace c = false := by simpa using hs
          rw [tokenizeL_word c cu hs'] at ht
          rcases List.mem_cons.mp ht with rfl | ht
          · refine Or.inr ⟨by simp, ?_⟩
            intro x hx
            rcases List.mem_cons.mp hx with rfl | hx
            · exact hs'
            · have := List.mem_takeWhile_imp hx
              simpa [isWordChar] using this
          · exact ih (cu.dropWhile isWordChar)
              (Nat.le_trans (length_dropWhile_le _ _) hcu) t ht

theorem tokenizeL_atoms (u : List Char) :
    ∀ t ∈ tokenizeL u, t = ['\n'] ∨ (t ≠ [] ∧ ∀ c ∈ t, pyIsSpace c = false) :=
  tokenizeL_atoms_aux u.length u (Nat.le_refl _)

theorem padSubst_tokens_ok_aux (cs : List Char)
    (hns : ∀ c ∈ cs, pyIsSpace c = false) :
    ∀ (n : Nat) (s : List Char), s.length ≤ n →
      ∀ t ∈ tokenizeL (padSubst cs s),
        (∀ c ∈ t, c ∉ cs) ∨ (∃ c ∈ cs, t = [c]) := by
  intro n
  induction n with
  | zero =>
    intro s hs t ht
    have : s = [] := List.length_eq_zero.mp (Nat.le_zero.mp hs)
    subst this
    simp [padSubst, tokenizeL_nil] at ht
  | succ n ih =>
    intro s hs t ht
    cases s with
    | nil => simp [padSubst, tokenizeL_nil] at ht
    | cons d ds =>
      have hds : ds.length ≤ n := by simpa using Nat.succ_le_succ_iff.mp hs
      by_cases hd : d ∈ cs
      · have hdw : pyIsSpace d = false := hns d hd
        have hdn : d ≠ '\n' := by intro e; subst e; simp [pyIsSpace] at hdw
        have hstep : padSubst cs (d :: ds) = ' ' :: d :: ' ' :: padSubst cs ds := by
          simp [padSubst, hd]
        rw [hstep, tokenizeL_space ' ' _ (by simp [pyIsSpace]) (by decide),
          tokenizeL_word d _ hdw] at ht
        have htw : (' ' :: padSubst cs ds).takeWhile isWordChar = [] := by
          simp [List.takeWhile_cons, isWordChar, pyIsSpace]
        have hdr : (' ' :: padSubst cs ds).dropWhile isWordChar =
            ' ' :: padSubst cs ds := by
          simp [List.dropWhile_cons, isWordChar, pyIsSpace]
        rw [htw, hdr, tokenizeL_space ' ' _ (by simp [pyIsSpace]) (by decide)] at ht
        rcases List.mem_cons.mp ht with rfl | ht
        · exact Or.inr ⟨d, hd, rfl⟩
        · exact ih ds hds t ht
      · by_cases hw : pyIsSpace d = true
        · have hstep : padSubst cs (d :: ds) = d :: padSubst cs ds := by
            simp [padSubst, hd]
          by_cases hn : d = '\n'
          · subst hn
            rw [hstep, tokenizeL_newline] at ht
            rcases List.mem_cons.mp ht with rfl | ht
            · refine Or.inl ?_
              intro x hx
              rcases List.mem_cons.mp hx with rfl | hx
              · intro hmem
                have h2 := hns '\n' hmem
                simp [pyIsSpace] at h2
              · simp at hx
            · exact ih ds hds t ht
          · rw [hstep, tokenizeL_space d _ hw hn] at ht
            exact ih ds hds t ht
        · have hw' : pyIsSpace d = false := by simpa using hw
          have hstep : padSubst cs (d :: ds) = d :: padSubst cs ds := by
            simp [padSubst, hd]
          rw [hstep, tokenizeL_word d _ hw', takeWhile_padSubst, dropWhile_padSubst]
            at ht
          rcases List.mem_cons.mp ht with rfl | ht
          · refine Or.inl ?_
            intro x hx
            rcases List.mem_cons.mp hx with rfl | hx
            · exact hd
            · have := List.mem_takeWhile_imp hx
              simp only [Bool.and_eq_true, Bool.not_eq_true', decide_eq_false_iff_not]
                at this
              exact this.2
          · exact ih (ds.dropWhile _)
              (Nat.le_trans (length_dropWhile_le _ _) hds) t ht

theorem padSubst_tokens_ok (cs : List Char)
    (hns : ∀ c ∈ cs, pyIsSpace c = false) (s : List Char) :
    ∀ t ∈ tokenizeL (padSubst cs s),
      (∀ c ∈ t, c ∉ cs) ∨ (∃ c ∈ cs, t = [c]) :=
  padSubst_tokens_ok_aux cs hns s.length s (Nat.le_refl _)

theorem flatMap_pure_id {α : Type} : ∀ l : List α, l.flatMap (fun x => [x]) = l := by
  intro l
  induction l with
  | nil => rfl
  | cons a l ih => simp only [List.flatMap_cons, ih]; rfl

theorem tokenizeL_padSubst_token (cs : List Char)
    (hns : ∀ c ∈ cs, pyIsSpace c = false) (t : List Char)
    (hatom : t = ['\n'] ∨ (t ≠ [] ∧ ∀ c ∈ t, pyIsSpace c = false))
    (hok : (∀ c ∈ t, c ∉ cs) ∨ (∃ c ∈ cs, t = [c])) :
    tokenizeL (padSubst cs t) = [t] := by
  rcases hok with hno | ⟨c, hc, rfl⟩
  · rw [flatMap_id_of_nospecial t hno]
    rcases hatom with rfl | ⟨hne, hchars⟩
    · rw [tokenizeL_newline, tokenizeL_nil]
    · cases t with
      | nil => exact absurd rfl hne
      | cons c tcs =>
        rw [tokenizeL_word c tcs (hchars c (List.mem_cons_self c tcs)),
          takeWhile_all tcs
            (fun b hb => by
              simp [isWordChar, hchars b (List.mem_cons_of_mem c hb)]),
          dropWhile_all tcs
            (fun b hb => by
              simp [isWordChar, hchars b (List.mem_cons_of_mem c hb)]),
          tokenizeL_nil]
  · have hcw : pyIsSpace c = false := hns c hc
    have hstep : padSubst cs [c] = [' ', c, ' '] := by simp [padSubst, hc]
    rw [hstep, tokenizeL_space ' ' _ (by simp [pyIsSpace]) (by decide),
      tokenizeL_word c [' '] hcw]
    have h1 : ([' '] : List Char).takeWhile isWordChar = [] := by decide
    have h2 : ([' '] : List Char).dropWhile isWordChar = [' '] := by decide
    rw [h1, h2, tokenizeL_space ' ' [] (by simp [pyIsSpace]) (by decide), tokenizeL_nil]

theorem padSubst_interSp (cs : List Char) (hsp : ' ' ∉ cs) :
    ∀ ts : List (List Char),
      padSubst cs (interSp ts) = interSp (ts.map (padSubst cs)) := by
  intro ts
  induction ts with
  | nil => rfl
  | cons x ts ih =>
    cases ts with
    | nil => rfl
    | cons y ys =>
      have : interSp (x :: y :: ys) = x ++ ' ' :: interSp (y :: ys) := rfl
      rw [this]
      have hdist : padSubst cs (x ++ ' ' :: interSp (y :: ys)) =
          padSubst cs x ++ ' ' :: padSubst cs (interSp (y :: ys)) := by
        simp [padSubst, List.flatMap_append, List.flatMap_cons, hsp]
      rw [hdist, ih]
      rfl

theorem padSubst_tokenize_idempotent (cs : List Char)
    (hns : ∀ c ∈ cs, pyIsSpace c = false) (s : List Char) :
    tokenizeL (padSubst cs (interSp (tokenizeL (padSubst cs s)))) =
      tokenizeL (padSubst cs s) := by
  have hsp : ' ' ∉ cs := by
    intro h
    have := hns ' ' h
    simp [pyIsSpace] at this
  rw [padSubst_interSp cs hsp, tokenizeL_interSp, List.flatMap_map]
  have hper : ∀ t ∈ tokenizeL (padSubst cs s),
      (fun t => tokenizeL (padSubst cs t)) t = (fun t => [t]) t := by
    intro t ht
    exact tokenizeL_padSubst_token cs hns t (tokenizeL_atoms _ t ht)
      (padSubst_tokens_ok cs hns s t ht)
  rw [flatMap_congr_mem _ _ _ hper, flatMap_pure_id]

theorem joinWith_space_data :
    ∀ ts : List (List Char),
      (joinWith " " (ts.map (fun l => (⟨l⟩ : String)))).data = interSp ts := by
  intro ts
  induction ts with
  | nil => rfl
  | cons x ts ih =>
    cases ts with
    | nil => rfl
    | cons y ys =>
      show ((⟨x⟩ : String) ++ " " ++ joinWith " " ((y :: ys).map _)).data = _
      rw [String.data_append, String.data_append, ih]
      show x ++ " ".data ++ interSp (y :: ys) = interSp (x :: y :: ys)
      rw [show (" ".data : List Char) = [' '] from rfl, List.append_assoc]
      rfl

theorem tokenizeByMapping_pad_idem (cs : List Char) (hnd : cs.Nodup)
    (hns : ∀ c ∈ cs, pyIsSpace c = false) (s : String) :
    tokenizeByMapping (cs.map (fun c => (⟨[c]⟩, ⟨[' ', c, ' ']⟩))) 
        (joinWith " " (tokenizeByMapping (cs.map (fun c => (⟨[c]⟩, ⟨[' ', c, ' ']⟩))) s)) =
      tokenizeByMapping (cs.map (fun c => (⟨[c]⟩, ⟨[' ', c, ' ']⟩))) s := by
  unfold tokenizeByMapping
  rw [applyMappings_pad_chars, foldl_subst1_eq_padSubst cs hnd hns,
    applyMappings_pad_chars, foldl_subst1_eq_padSubst cs hnd hns,
    joinWith_space_data, padSubst_tokenize_idempotent cs hns]

/-- Claim C6 (amended): token normalization is idempotent on already
normalized, space-joined output for the VB.NET and the C# mapping tables —
both are tables of distinct single non-whitespace characters padded with
spaces — but not for every mapping table of these parsers: the XML table
violates idempotence (see the counterexample). -/
theorem token_normalization_idempotent_vb_csharp :
    (∀ s : String,
      tokenizeByMapping vbnetMappings (joinWith " " (tokenizeByMapping vbnetMappings s)) =
        tokenizeByMapping vbnetMappings s) ∧
    (∀ s : String,
      tokenizeByMapping csharpMappings (joinWith " " (tokenizeByMapping csharpMappings s)) =
        tokenizeByMapping csharpMappings s) := by
  constructor
  · intro s
    have hmap : vbnetMappings =
        vbnetMapChars.map (fun c => ((⟨[c]⟩ : String), (⟨[' ', c, ' ']⟩ : String))) := by
      decide
    rw [hmap]
    exact tokenizeByMapping_pad_idem vbnetMapChars (by decide) (by decide) s
  · intro s
    have hmap : csharpMappings =
        csharpMapChars.map (fun c => ((⟨[c]⟩ : String), (⟨[' ', c, ' ']⟩ : String))) := by
      decide
    rw [hmap]
    exact tokenizeByMapping_pad_idem csharpMapChars (by decide) (by decide) s

/-- Claim C6 counterexample: the XML token map is not idempotent.  On the
input `!--` the first application yields the tokens `["<!", "--"]` (the
`!--` entry manufactures a `<` which the later `--`
entry cuts into `<!`), but re-running the tokenizer on the space-joined
result yields `["<", "!", "--"]`. -/
theorem c6_xml_map_not_idempotent :
    tokenizeByMapping xmlMappings "!--" = ["<!", "--"] ∧
    tokenizeByMapping xmlMappings
        (joinWith " " (tokenizeByMapping xmlMappings "!--")) = ["<", "!", "--"] ∧
    tokenizeByMapping xmlMappings
        (joinWith " " (tokenizeByMapping xmlMappings "!--")) ≠
      tokenizeByMapping xmlMappings "!--" := by
  decide

theorem padSubst_single (c : Char) (s : List Char) :
    pyReplace [c] [' ', c, ' '] s = padSubst [c] s := by
  rw [pyReplace_single]
  unfold padSubst
  apply flatMap_congr_mem
  intro d _
  by_cases hd : d = c
  · simp [hd]
  · simp [hd]

theorem ltOK_tail {c : Char} {l : List Char} (h : ltOK (c :: l) = true) :
    ltOK l = true := by
  have h2 := (Bool.and_eq_true _ _).mp h
  exact h2.2

theorem ltOK2_tail {c : Char} {l : List Char} (h : ltOK2 (c :: l) = true) :
    ltOK2 l = true := by
  have h2 := (Bool.and_eq_true _ _).mp h
  exact h2.2

theorem ltOK3_tail {c : Char} {l : List Char} (h : ltOK3 (c :: l) = true) :
    ltOK3 l = true := by
  have h2 := (Bool.and_eq_true _ _).mp h
  exact h2.2

theorem headIsSpace_space (l : List Char) : headIsSpace (' ' :: l) = true := by
  simp [headIsSpace]

theorem headIsSpace_shape {l : List Char} (h : headIsSpace l = true) :
    ∃ t, l = ' ' :: t := by
  cases l with
  | nil => simp [headIsSpace] at h
  | cons c t =>
    simp only [headIsSpace, List.head?_cons, Option.some.injEq, decide_eq_true_eq] at h
    exact ⟨t, by rw [h]⟩

theorem headBangDashes_shape {l : List Char} (h : headBangDashes l = true) :
    ∃ t, l = '!' :: '-' :: '-' :: ' ' :: t := by
  rcases l with _ | ⟨a, _ | ⟨b, _ | ⟨c, _ | ⟨d, t⟩⟩⟩⟩ <;>
    simp only [headBangDashes, List.take, decide_eq_true_eq, List.cons.injEq,
      List.nil_eq, List.cons_ne_nil, and_false, false_and] at h
  · obtain ⟨h1, h2, h3, h4, _⟩ := h
    exact ⟨t, by rw [h1, h2, h3, h4]⟩

theorem headBangSpace_shape {l : List Char} (h : headBangSpace l = true) :
    ∃ t, l = '!' :: ' ' :: t := by
  rcases l with _ | ⟨a, _ | ⟨b, t⟩⟩ <;>
    simp only [headBangSpace, List.take, decide_eq_true_eq, List.cons.injEq,
      List.nil_eq, List.cons_ne_nil, and_false, false_and] at h
  · obtain ⟨h1, h2, _⟩ := h
    exact ⟨t, by rw [h1, h2]⟩

theorem ltOK_append_no_lt :
    ∀ (a b : List Char), (∀ x ∈ a, x ≠ '<') → ltOK b = true →
      ltOK (a ++ b) = true := by
  intro a
  induction a with
  | nil => intro b _ hb; simpa using hb
  | cons x a ih =>
    intro b ha hb
    have hx : x ≠ '<' := ha x (List.mem_cons_self x a)
    simp only [List.cons_append, ltOK, hx, if_neg hx, Bool.true_and]
    exact ih b (fun y hy => ha y (List.mem_cons_of_mem x hy)) hb

theorem ltOK_padSubst_lt : ∀ s : List Char, ltOK (padSubst ['<'] s) = true := by
  intro s
  induction s with
  | nil => rfl
  | cons d ds ih =>
    by_cases hd : d = '<'
    · subst hd
      have : padSubst ['<'] ('<' :: ds) = ' ' :: '<' :: ' ' :: padSubst ['<'] ds := by
        simp [padSubst]
      rw [this]
      simp [ltOK, ih, headIsSpace]
    · have : padSubst ['<'] (d :: ds) = d :: padSubst ['<'] ds := by
        simp [padSubst, hd]
      rw [this]
      simp [ltOK, hd, ih]

theorem ltOK_padSubst_preserve_aux (c : Char) (hc1 : c ≠ '<') (hc2 : c ≠ ' ') :
    ∀ (n : Nat) (s : List Char), s.length ≤ n → ltOK s = true →
      ltOK (padSubst [c] s) = true := by
  intro n
  induction n with
  | zero =>
    intro s hs _
    have : s = [] := List.length_eq_zero.mp (Nat.le_zero.mp hs)
    subst this
    rfl
  | succ n ih =>
    intro s hs hok
    cases s with
    | nil => rfl
    | cons d ds =>
      have hds : ds.length ≤ n := by simpa using Nat.succ_le_succ_iff.mp hs
      by_cases hd : d = '<'
      · subst hd
        have hsh : ∃ ds', ds = ' ' :: ds' := by
          have hcopy := hok
          simp only [ltOK, if_pos rfl, Bool.and_eq_true] at hcopy
          exact headIsSpace_shape hcopy.1
        rcases hsh with ⟨ds', rfl⟩
        have hstep : padSubst [c] ('<' :: ' ' :: ds') =
            '<' :: ' ' :: padSubst [c] ds' := by
          simp only [padSubst, List.flatMap_cons]
          rw [if_neg (by simp [Ne.symm hc1]), if_neg (by simp [Ne.symm hc2])]
          rfl
        rw [hstep]
        have hok' : ltOK ds' = true := ltOK_tail (ltOK_tail hok)
        have hds' : ds'.length ≤ n := by
          simp only [List.length_cons] at hds
          omega
        have := ih ds' (by omega) hok'
        simp [ltOK, this, headIsSpace]
      · have hstep : padSubst [c] (d :: ds) =
            (if d = c then [' ', d, ' '] else [d]) ++ padSubst [c] ds := by
          simp only [padSubst, List.flatMap_cons, List.mem_singleton]
        rw [hstep]
        apply ltOK_append_no_lt
        · intro x hx
          have hx' : x = ' ' ∨ x = d := by
            by_cases hdc : d = c
            · simp only [if_pos hdc] at hx
              rcases (by simpa using hx : x = ' ' ∨ x = d ∨ x = ' ') with h | h | h
              · exact Or.inl h
              · exact Or.inr h
              · exact Or.inl h
            · simp only [if_neg hdc] at hx
              exact Or.inr (by simpa using hx)
          rcases hx' with rfl | rfl
          · decide
          · exact hd
        · exact ih ds hds (ltOK_tail hok)

theorem ltOK_padSubst_preserve (c : Char) (hc1 : c ≠ '<') (hc2 : c ≠ ' ')
    (s : List Char) (h : ltOK s = true) : ltOK (padSubst [c] s) = true :=
  ltOK_padSubst_preserve_aux c hc1 hc2 s.length s (Nat.le_refl _) h

theorem ltOK_lt_head {cs : List Char} (h : ltOK ('<' :: cs) = true) :
    ∃ t, cs = ' ' :: t := by
  have h2 := (Bool.and_eq_true _ _).mp h
  exact headIsSpace_shape (by simpa using h2.1)

theorem ltOK2_lt_head {cs : List Char} (h : ltOK2 ('<' :: cs) = true) :
    (∃ t, cs = ' ' :: t) ∨ (∃ t, cs = '!' :: '-' :: '-' :: ' ' :: t) := by
  have h2 := (Bool.and_eq_true _ _).mp h
  have h3 : (headIsSpace cs || headBangDashes cs) = true := by simpa using h2.1
  rcases Bool.or_eq_true _ _ |>.mp h3 with h4 | h4
  · exact Or.inl (headIsSpace_shape h4)
  · exact Or.inr (headBangDashes_shape h4)

theorem isPrefixOf3_shape {a b d c : Char} {cs : List Char}
    (h : [a, b, d].isPrefixOf (c :: cs) = true) : c = a ∧ ∃ r, cs = b :: d :: r := by
  rcases cs with _ | ⟨x, _ | ⟨y, r⟩⟩ <;>
    simp only [List.isPrefixOf, Bool.and_eq_true, beq_iff_eq] at h
  · exact absurd h (by simp)
  · exact absurd h (by simp)
  · obtain ⟨h1, h2, h3, _⟩ := h
    exact ⟨h1.symm, r, by rw [h2, h3]⟩

theorem isPrefixOf2_shape {a b c : Char} {cs : List Char}
    (h : [a, b].isPrefixOf (c :: cs) = true) : c = a ∧ ∃ r, cs = b :: r := by
  rcases cs with _ | ⟨x, r⟩ <;>
    simp only [List.isPrefixOf, Bool.and_eq_true, beq_iff_eq] at h
  · exact absurd h (by simp)
  · obtain ⟨h1, h2, _⟩ := h
    exact ⟨h1.symm, r, by rw [h2]⟩

theorem ltOK2_after_bang_subst :
    ∀ (fuel : Nat) (s : List Char), s.length ≤ fuel → ltOK s = true →
      ltOK2 (pyReplaceFuel ['!', '-', '-'] [' ', '<', '!', '-', '-', ' '] fuel s)
        = true := by
  intro fuel
  induction fuel using Nat.strong_induction_on with
  | _ fuel ih =>
    intro s hs hok
    cases s with
    | nil => cases fuel <;> rfl
    | cons c cs =>
      cases fuel with
      | zero => simp at hs
      | succ n =>
        have hcs : cs.length ≤ n := by simp at hs; omega
        by_cases hpre : (['!', '-', '-'].isPrefixOf (c :: cs)) = true
        · obtain ⟨rfl, r, rfl⟩ := isPrefixOf3_shape hpre
          have hstep : pyReplaceFuel ['!', '-', '-'] [' ', '<', '!', '-', '-', ' ']
              (n + 1) ('!' :: '-' :: '-' :: r) =
              ' ' :: '<' :: '!' :: '-' :: '-' :: ' ' ::
                pyReplaceFuel ['!', '-', '-'] [' ', '<', '!', '-', '-', ' '] n r := by
            simp [pyReplaceFuel, hpre]
          rw [hstep]
          have hrOK : ltOK r = true := ltOK_tail (ltOK_tail (ltOK_tail hok))
          have hrec := ih n (by omega) r (by simp at hs; omega) hrOK
          simp [ltOK2, hrec, headIsSpace, headBangDashes]
        · have hpre' : (['!', '-', '-'].isPrefixOf (c :: cs)) = false :=
            Bool.eq_false_iff.mpr hpre
          have hstep : pyReplaceFuel ['!', '-', '-'] [' ', '<', '!', '-', '-', ' ']
              (n + 1) (c :: cs) =
              c :: pyReplaceFuel ['!', '-', '-'] [' ', '<', '!', '-', '-', ' '] n cs := by
            simp [pyReplaceFuel, hpre']
          rw [hstep]
          have hcsOK : ltOK cs = true := ltOK_tail hok
          have hrec := ih n (by omega) cs hcs hcsOK
          by_cases hc : c = '<'
          · subst hc
            obtain ⟨t, rfl⟩ := ltOK_lt_head hok
            obtain ⟨m, rfl⟩ : ∃ m, n = m + 1 := ⟨n - 1, by simp at hcs; omega⟩
            have hstep2 : pyReplaceFuel ['!', '-', '-'] [' ', '<', '!', '-', '-', ' ']
                (m + 1) (' ' :: t) =
                ' ' :: pyReplaceFuel ['!', '-', '-'] [' ', '<', '!', '-', '-', ' '] m t := by
              simp [pyReplaceFuel, List.isPrefixOf]
            rw [hstep2] at hrec ⊢
            simp only [ltOK2, if_pos rfl, headIsSpace_space, Bool.true_and] at hrec ⊢
            simpa [headIsSpace] using hrec
          · simp [ltOK2, hc, hrec]

theorem ltOK3_after_dash_subst :
    ∀ (fuel : Nat) (s : List Char), s.length ≤ fuel → ltOK2 s = true →
      ltOK3 (pyReplaceFuel ['-', '-'] [' ', '-', '-', ' '] fuel s) = true := by
  intro fuel
  induction fuel using Nat.strong_induction_on with
  | _ fuel ih =>
    intro s hs hok
    cases s with
    | nil => cases fuel <;> rfl
    | cons c cs =>
      cases fuel with
      | zero => simp at hs
      | succ n =>
        have hcs : cs.length ≤ n := by simp at hs; omega
        by_cases hpre : (['-', '-'].isPrefixOf (c :: cs)) = true
        · obtain ⟨rfl, r, rfl⟩ := isPrefixOf2_shape hpre
          have hstep : pyReplaceFuel ['-', '-'] [' ', '-', '-', ' ']
              (n + 1) ('-' :: '-' :: r) =
              ' ' :: '-' :: '-' :: ' ' ::
                pyReplaceFuel ['-', '-'] [' ', '-', '-', ' '] n r := by
            simp [pyReplaceFuel, hpre]
          rw [hstep]
          have hrOK : ltOK2 r = true := ltOK2_tail (ltOK2_tail hok)
          have hrec := ih n (by omega) r (by simp at hs; omega) hrOK
          simp [ltOK3, hrec]
        · have hpre' : (['-', '-'].isPrefixOf (c :: cs)) = false :=
            Bool.eq_false_iff.mpr hpre
          have hstep : pyReplaceFuel ['-', '-'] [' ', '-', '-', ' ']
              (n + 1) (c :: cs) =
              c :: pyReplaceFuel ['-', '-'] [' ', '-', '-', ' '] n cs := by
            simp [pyReplaceFuel, hpre']
          rw [hstep]
          have hcsOK : ltOK2 cs = true := ltOK2_tail hok
          have hrec := ih n (by omega) cs hcs hcsOK
          by_cases hc : c = '<'
          · subst hc
            rcases ltOK2_lt_head hok with ⟨t, rfl⟩ | ⟨t, rfl⟩
            · obtain ⟨m, rfl⟩ : ∃ m, n = m + 1 := ⟨n - 1, by simp at hcs; omega⟩
              have hstep2 : pyReplaceFuel ['-', '-'] [' ', '-', '-', ' ']
                  (m + 1) (' ' :: t) =
                  ' ' :: pyReplaceFuel ['-', '-'] [' ', '-', '-', ' '] m t := by
                simp [pyReplaceFuel, List.isPrefixOf]
              rw [hstep2] at hrec ⊢
              simp only [ltOK3, if_pos rfl, headIsSpace_space, Bool.true_and] at hrec ⊢
              simpa [headIsSpace] using hrec
            · obtain ⟨m, rfl⟩ : ∃ m, n = m + 2 := ⟨n - 2, by simp at hcs; omega⟩
              have hstep2 : pyReplaceFuel ['-', '-'] [' ', '-', '-', ' ']
                  (m + 2) ('!' :: '-' :: '-' :: ' ' :: t) =
                  '!' :: ' ' :: '-' :: '-' :: ' ' ::
                    pyReplaceFuel ['-', '-'] [' ', '-', '-', ' '] m (' ' :: t) := by
                show pyReplaceFuel ['-', '-'] [' ', '-', '-', ' ']
                  (m + 1 + 1) ('!' :: '-' :: '-' :: ' ' :: t) = _
                rw [show pyReplaceFuel ['-', '-'] [' ', '-', '-', ' ']
                    (m + 1 + 1) ('!' :: '-' :: '-' :: ' ' :: t) =
                    '!' :: pyReplaceFuel ['-', '-'] [' ', '-', '-', ' ']
                      (m + 1) ('-' :: '-' :: ' ' :: t) from by
                  simp [pyReplaceFuel, List.isPrefixOf]]
                simp [pyReplaceFuel, List.isPrefixOf]
              rw [hstep2] at hrec ⊢
              simp [ltOK3, headBangSpace, headIsSpace, List.take] at hrec ⊢
              exact hrec
          · simp [ltOK3, hc, hrec]

theorem ltOK2_pyReplace_bang (u : List Char) (h : ltOK u = true) :
    ltOK2 (pyReplace ['!', '-', '-'] [' ', '<', '!', '-', '-', ' '] u) = true := by
  unfold pyReplace
  rw [if_neg (by simp)]
  exact ltOK2_after_bang_subst u.length u (Nat.le_refl _) h

theorem ltOK3_pyReplace_dash (u : List Char) (h : ltOK2 u = true) :
    ltOK3 (pyReplace ['-', '-'] [' ', '-', '-', ' '] u) = true := by
  unfold pyReplace
  rw [if_neg (by simp)]
  exact ltOK3_after_dash_subst u.length u (Nat.le_refl _) h

set_option maxHeartbeats 1000000 in
theorem xml_subst_ltOK3 (s : List Char) :
    ltOK3 (applyMappings xmlMappings s) = true := by
  have e : applyMappings xmlMappings s =
      pyReplace ['-', '-'] [' ', '-', '-', ' ']
        (pyReplace ['!', '-', '-'] [' ', '<', '!', '-', '-', ' ']
          (pyReplace ['"'] [' ', '"', ' ']
            (pyReplace ['='] [' ', '=', ' ']
              (pyReplace ['/'] [' ', '/', ' ']
                (pyReplace ['>'] [' ', '>', ' ']
                  (pyReplace ['<'] [' ', '<', ' '] s)))))) := rfl
  rw [e]
  have step : ∀ (c : Char), c ≠ '<' → c ≠ ' ' → ∀ u, ltOK u = true →
      ltOK (pyReplace [c] [' ', c, ' '] u) = true := by
    intro c hc1 hc2 u hu
    rw [padSubst_single]
    exact ltOK_padSubst_preserve c hc1 hc2 u hu
  have h1 : ltOK (pyReplace ['<'] [' ', '<', ' '] s) = true := by
    rw [padSubst_single]
    exact ltOK_padSubst_lt s
  have h5 := step '"' (by decide) (by decide) _
    (step '=' (by decide) (by decide) _
      (step '/' (by decide) (by decide) _
        (step '>' (by decide) (by decide) _ h1)))
  exact ltOK3_pyReplace_dash _ (ltOK2_pyReplace_bang _ h5)

theorem ltOK3_dropWhile (p : Char → Bool) :
    ∀ u : List Char, ltOK3 u = true → ltOK3 (u.dropWhile p) = true := by
  intro u
  induction u with
  | nil => intro _; rfl
  | cons c cu ih =>
    intro h
    by_cases hc : p c = true
    · simp only [List.dropWhile_cons, hc, if_true]
      exact ih (ltOK3_tail h)
    · simp only [Bool.not_eq_true] at hc
      simpa [List.dropWhile_cons, hc] using h

theorem ltOK3_tokens_aux :
    ∀ (n : Nat) (u : List Char), u.length ≤ n → ltOK3 u = true →
      ∀ t ∈ tokenizeL u, t.head? = some '<' → t = ['<'] ∨ t = ['<', '!'] := by
  intro n
  induction n with
  | zero =>
    intro u hu _ t ht
    have : u = [] := List.length_eq_zero.mp (Nat.le_zero.mp hu)
    subst this
    simp [tokenizeL_nil] at ht
  | succ n ih =>
    intro u hu hok t ht hhead
    cases u with
    | nil => simp [tokenizeL_nil] at ht
    | cons c cu =>
      have hcu : cu.length ≤ n := by simpa using Nat.succ_le_succ_iff.mp hu
      have htl : ltOK3 cu = true := ltOK3_tail hok
      by_cases hn : c = '\n'
      · subst hn
        rw [tokenizeL_newline] at ht
        rcases List.mem_cons.mp ht with rfl | ht
        · simp at hhead
        · exact ih cu hcu htl t ht hhead
      · by_cases hs : pyIsSpace c = true
        · rw [tokenizeL_space c cu hs hn] at ht
          exact ih cu hcu htl t ht hhead
        · have hs' : pyIsSpace c = false := by simpa using hs
          rw [tokenizeL_word c cu hs'] at ht
          rcases List.mem_cons.mp ht with rfl | ht
          · have hc : c = '<' := by simpa using hhead
            subst hc
            have h2 := (Bool.and_eq_true _ _).mp hok
            have h3 : (headIsSpace cu || headBangSpace cu) = true := by
              simpa using h2.1
            rcases Bool.or_eq_true _ _ |>.mp h3 with h4 | h4
            · obtain ⟨t', rfl⟩ := headIsSpace_shape h4
              left
              simp [List.takeWhile_cons, isWordChar, pyIsSpace]
            · obtain ⟨t', rfl⟩ := headBangSpace_shape h4
              right
              simp [List.takeWhile_cons, isWordChar, pyIsSpace]
          · exact ih (cu.dropWhile isWordChar)
              (Nat.le_trans (length_dropWhile_le _ _) hcu)
              (ltOK3_dropWhile isWordChar cu htl) t ht hhead

theorem isPrefixOf_singleton_head {c : Char} {l : List Char}
    (h : [c].isPrefixOf l = true) : l.head? = some c := by
  cases l with
  | nil => simp [List.isPrefixOf] at h
  | cons x xs =>
    simp only [List.isPrefixOf, Bool.and_eq_true, beq_iff_eq] at h
    simp [h.1]

/-- Claim C10 (amended): every entry that XML tag extraction appends to
the import dependencies of the file result is either the empty string, one per
standalone `<` token — or the one-character string `!`, produced from the
`<!` tokens that the `!--` and `--` mapping entries
manufacture out of comment openers; no other tag name is ever recorded. -/
theorem xml_tag_extraction_entries (s : String) (e : String)
    (he : e ∈ xmlAddTags (xmlFileTokens s)) : e = "" ∨ e = "!" := by
  unfold xmlAddTags xmlFileTokens tokenizeByMapping at he
  obtain ⟨t, ht, hf⟩ := List.mem_filterMap.mp he
  obtain ⟨l, hl, rfl⟩ := List.mem_map.mp ht
  by_cases hstart : pyStartsWith ⟨l⟩ "<" = true
  · rw [if_pos hstart] at hf
    have hhead : l.head? = some '<' := by
      have : ("<".data : List Char).isPrefixOf l = true := hstart
      exact isPrefixOf_singleton_head (by simpa using this)
    have hshape := ltOK3_tokens_aux (applyMappings xmlMappings s.data).length
      (applyMappings xmlMappings s.data) (Nat.le_refl _)
      (xml_subst_ltOK3 s.data) l hl hhead
    rcases hshape with rfl | rfl
    · left
      have : pyStrip ⟨((['<'] : List Char).drop 1).takeWhile (fun c => c ≠ '>')⟩ =
          "" := by decide
      rw [← Option.some_inj, ← hf]
      simp only [String.data]
      exact congrArg some this
    · right
      have : pyStrip ⟨((['<', '!'] : List Char).drop 1).takeWhile (fun c => c ≠ '>')⟩ =
          "!" := by decide
      rw [← Option.some_inj, ← hf]
      simp only [String.data]
      exact congrArg some this
  · rw [if_neg hstart] at hf
    exact absurd hf (by simp)

theorem xml_tag_extraction_entries_witness :
    "" ∈ xmlAddTags (xmlFileTokens "<a>") ∧ (("" : String) = "" ∨ ("" : String) = "!") :=
  ⟨by decide, xml_tag_extraction_entries "<a>" "" (by decide)⟩

/-- Claim C10 counterexample: on the input `<!--` the XML token map produces
the tokens `<`, `<!`, `--`; tag extraction records the entries `""` and
`"!"` — the nonempty tag name `!` is recorded, contradicting the claim that
every appended entry is the empty string. -/
theorem c10_bang_tag_counterexample :
    xmlFileTokens "<!--" = ["<", "<!", "--"] ∧
    xmlAddTags (xmlFileTokens "<!--") = ["", "!"] ∧
    ("!" : String) ≠ "" := by decide
